import Mathlib

/-!
# Discrete-event simulator of a single-server queue (`src/main.cpp`)

A shallow embedding of the event queue (`class Event`), the ready queue, the two
event handlers and the main loop of `main.cpp`, followed by theorems about them.

Modelling conventions.
* A `double` is a rational number (`ℚ`): every finite `double` is one, and the
  arithmetic of the program (`+`, `<`, `/`) is taken exact. `NaN` and the
  infinities are outside the model. The theorems on the order of times use of
  `clock + x` only that it is not below `clock` when `x` is not negative, and
  the condition for the loop to end is put on the times the run computes, not
  on the intervals drawn.
* `number_of_processes` is a 32-bit `int`: its increment wraps around
  (`wrapInt`), from 2147483647 to -2147483648, as it does on the usual
  two's-complement targets (the C++ standard leaves the overflow undefined).
  `completed_processes` is incremented only while it is below the number of
  completions asked for, and is an integer (`Int`).
* The singly linked list hanging off `Event::head` is a `List` of its nodes, the
  head of the list being `head`; `nullptr` is `[]`.
* Reading through a null pointer has no result: such functions return `Option`
  and `none` stands for the null dereference.
* The random source behind `GenerateTimes` is a parameter: the value of
  `log(u)` of each call, or (when the generator is replaced as a whole) the
  function `gen` from the number of the call and `lambda` to the interval.
-/

namespace DES

/-! ## Data model -/

/-- Node of the event list (`struct EventQueue`, lines 34-39), without its
`next` pointer, which the list structure carries. -/
structure EventQueue where
  type : String
  event_time : ℚ
  process_id : Int
deriving DecidableEq, Repr

/-- The object of `class Event`: the list starting at `head`. The member
`previous_arrival` is written once by the constructor and never read. -/
abbrev Event := List EventQueue

/-- Object of `class Ready` (lines 119-141). -/
structure Ready where
  service_time : ℚ
  process_id : Int
deriving DecidableEq, Repr

/-! ## The event queue -/

/-- The scan loop of `InsertEvent` (lines 77-84), started with `lead` at the
given list. The first component holds the nodes the loop walked past, in list
order, so `prev` is its last node (`nullptr` when it is empty); the second
component is the list at `lead` when the loop ends. -/
def scanLoop (time : ℚ) : List EventQueue → List EventQueue × List EventQueue
  | [] => ([], [])
  | lead :: rest =>
    if time < lead.event_time then ([], lead :: rest)
    else (lead :: (scanLoop time rest).1, (scanLoop time rest).2)

/-- `Event::InsertEvent` (lines 54-89). `none` is the dereference of a null
`prev` at line 87. -/
def InsertEvent (q : Event) (process_type : String) (time : ℚ) (p_id : Int) :
    Option Event :=
  match q with
  | [] => some [⟨process_type, time, p_id⟩]
  | lead :: rest =>
    if time < lead.event_time then some (⟨process_type, time, p_id⟩ :: lead :: rest)
    else
      match scanLoop time (lead :: rest) with
      | ([], _) => none
      | (p :: walked, l) => some ((p :: walked) ++ ⟨process_type, time, p_id⟩ :: l)

/-- `Event::RemoveEvent` (lines 91-98). -/
def RemoveEvent (q : Event) : Event :=
  match q with
  | [] => []
  | _ :: rest => rest

/-- `Event::GetNextEventType` (lines 99-101). -/
def GetNextEventType (q : Event) : Option String :=
  match q with
  | [] => none
  | h :: _ => some h.type

/-- `Event::GetNextEventTime` (lines 102-104). -/
def GetNextEventTime (q : Event) : Option ℚ :=
  match q with
  | [] => none
  | h :: _ => some h.event_time

/-- `Event::GetNextProcessID` (lines 105-107). -/
def GetNextProcessID (q : Event) : Option Int :=
  match q with
  | [] => none
  | h :: _ => some h.process_id

/-- Insert the given events one after the other with `InsertEvent`. -/
def insertAll : Event → List EventQueue → Option Event
  | q, [] => some q
  | q, e :: es =>
    match InsertEvent q e.type e.event_time e.process_id with
    | none => none
    | some q1 => insertAll q1 es

/-- Read the head with the three getters and remove it with `RemoveEvent`,
`n` times; the result is the list of events read, in the order read, and the
queue that is left. -/
def drain : Nat → Event → Option (List EventQueue × Event)
  | 0, q => some ([], q)
  | n + 1, q =>
    match GetNextEventType q, GetNextEventTime q, GetNextProcessID q with
    | some ty, some t, some id =>
      match drain n (RemoveEvent q) with
      | some (out, q1) => some (⟨ty, t, id⟩ :: out, q1)
      | none => none
    | _, _, _ => none

/-- One call on the event queue. -/
inductive QueueOp where
  | insert (process_type : String) (time : ℚ) (p_id : Int)
  | remove
deriving DecidableEq, Repr

/-- Run a sequence of `InsertEvent` and `RemoveEvent` calls, first to last. -/
def applyOps : Event → List QueueOp → Option Event
  | q, [] => some q
  | q, QueueOp.insert ty t id :: ops =>
    match InsertEvent q ty t id with
    | none => none
    | some q1 => applyOps q1 ops
  | q, QueueOp.remove :: ops => applyOps (RemoveEvent q) ops

/-- The queue is in ascending order of event time. -/
def SortedByTime (q : List EventQueue) : Prop :=
  q.Pairwise (fun a b => a.event_time ≤ b.event_time)

instance (q : List EventQueue) : Decidable (SortedByTime q) := by
  unfold SortedByTime; infer_instance

/-- The order on events that compares the times only. -/
def timeLE (a b : EventQueue) : Prop := a.event_time ≤ b.event_time

instance : DecidableRel timeLE := fun a b => by unfold timeLE; infer_instance

instance : IsTotal EventQueue timeLE := ⟨fun a b => le_total a.event_time b.event_time⟩

instance : IsTrans EventQueue timeLE := ⟨fun _ _ _ h1 h2 => le_trans h1 h2⟩

/-! ## The simulation -/

/-- `GenerateTimes` (lines 23-30), given the value `logu` of `log(u)` for the
uniform draw `u` of this call. -/
def GenerateTimes (logu : ℚ) (lambda : ℚ) : ℚ :=
  (-1 / lambda) * logu

/-- What one run is given: the two numbers read from the console (lines
151-154), the number of completions at which the loop stops (the literal
`10000` of line 168) and the interval generator with its random source fixed:
`gen k lambda` is what the call number `k` (from 0) of `GenerateTimes` returns
when its argument is `lambda`. -/
structure Config where
  avg_arrival_rate : ℚ
  avg_service_rate : ℚ
  target : Int
  gen : Nat → ℚ → ℚ

/-- The generator of the source: call number `k` draws `u` with `log(u) = logu k`. -/
def sourceGen (logu : Nat → ℚ) : Nat → ℚ → ℚ :=
  fun k lambda => GenerateTimes (logu k) lambda

/-- The state of a run: the globals of lines 17-21 that change, the locals of
`main` that the loop changes, and the number of calls of `GenerateTimes` made
so far. -/
structure Sim where
  number_of_processes : Int
  total_service_time : ℚ
  total_ready_queue_time : ℚ
  completed_processes : Int
  clock : ℚ
  server_idle : Bool
  ready_queue : List Ready
  manager : Event
  calls : Nat
deriving DecidableEq, Repr

/-- The value of a 32-bit `int` after an operation with the exact result `x`:
`x` wrapped around into the range from `-2147483648` to `2147483647`. -/
def wrapInt (x : Int) : Int :=
  (x + 2147483648) % 4294967296 - 2147483648

/-- `HandleArrival` (lines 202-220). -/
def HandleArrival (cfg : Config) (s : Sim) (p_id : Int) : Option Sim := do
  let s1 ←
    if s.server_idle then do
      let service_time := cfg.gen s.calls (1 / cfg.avg_service_rate)
      let m ← InsertEvent s.manager "departure" (s.clock + service_time) p_id
      pure { s with
        server_idle := false
        total_service_time := s.total_service_time + service_time
        manager := m
        calls := s.calls + 1 }
    else
      let service_time := cfg.gen s.calls (1 / cfg.avg_service_rate)
      pure { s with
        ready_queue := s.ready_queue ++ [⟨service_time, p_id⟩]
        calls := s.calls + 1 }
  let arrival_time := cfg.gen s1.calls cfg.avg_arrival_rate
  let m ← InsertEvent s1.manager "arrival" (s1.clock + arrival_time)
    (wrapInt (s1.number_of_processes + 1))
  pure { s1 with
    number_of_processes := wrapInt (s1.number_of_processes + 1)
    manager := m
    calls := s1.calls + 1 }

/-- `HandleDeparture` (lines 223-236). -/
def HandleDeparture (s : Sim) : Option Sim :=
  match s.ready_queue with
  | [] => some { s with server_idle := true }
  | next_process :: rest => do
    let service_time := next_process.service_time
    let m ← InsertEvent s.manager "departure" (s.clock + service_time)
      next_process.process_id
    pure { s with
      server_idle := false
      ready_queue := rest
      total_service_time := s.total_service_time + service_time
      manager := m }

/-- The state at line 163, after the initialisation of `main`. -/
def initial : Option Sim := do
  let m ← InsertEvent [] "arrival" 0 1
  pure {
    number_of_processes := 1
    total_service_time := 0
    total_ready_queue_time := 0
    completed_processes := 0
    clock := 0
    server_idle := true
    ready_queue := []
    manager := m
    calls := 0 }

/-- The state `initial` evaluates to. -/
def startState : Sim :=
  { number_of_processes := 1
    total_service_time := 0
    total_ready_queue_time := 0
    completed_processes := 0
    clock := 0
    server_idle := true
    ready_queue := []
    manager := [⟨"arrival", 0, 1⟩]
    calls := 0 }

/-- One iteration of the body of the `while` loop (lines 169-183). -/
def loopBody (cfg : Config) (s : Sim) : Option Sim := do
  let event_type ← GetNextEventType s.manager
  let event_time ← GetNextEventTime s.manager
  let event_id ← GetNextProcessID s.manager
  let s1 := { s with manager := RemoveEvent s.manager, clock := event_time }
  let s2 ←
    if event_type = "arrival" then HandleArrival cfg s1 event_id
    else do
      let s3 ← HandleDeparture s1
      pure { s3 with completed_processes := s3.completed_processes + 1 }
  pure { s2 with
    total_ready_queue_time := s2.total_ready_queue_time + s2.ready_queue.length }

/-- The `while` loop of lines 168-184 for at most `n` iterations: the state
after `n` iterations, or the state at which the loop was left if that
happened earlier. -/
def mainLoop (cfg : Config) : Nat → Sim → Option Sim
  | 0, s => some s
  | n + 1, s =>
    if s.completed_processes < cfg.target then
      match loopBody cfg s with
      | none => none
      | some s1 => mainLoop cfg n s1
    else some s

/-- The events the loop takes from the queue in its first `n` iterations, in
the order taken. -/
def processed (cfg : Config) : Nat → Sim → List EventQueue
  | 0, _ => []
  | n + 1, s =>
    if s.completed_processes < cfg.target then
      match s.manager, loopBody cfg s with
      | e :: _, some s1 => e :: processed cfg n s1
      | _, _ => []
    else []

/-- `main` up to the point reached after at most `n` iterations of the loop. -/
def run (cfg : Config) (n : Nat) : Option Sim :=
  match initial with
  | none => none
  | some s0 => mainLoop cfg n s0

/-- The events `main` has processed after at most `n` iterations. -/
def runProcessed (cfg : Config) (n : Nat) : List EventQueue :=
  match initial with
  | none => []
  | some s0 => processed cfg n s0

/-- The four numbers printed at the end (lines 187-190). A quotient by `clock`
is meaningful in this model only when `clock` is not zero. -/
structure Metrics where
  avg_turnaround_time : ℚ
  total_throughput : ℚ
  cpu_utilization : ℚ
  avg_number_of_processes_in_ready_queue : ℚ
deriving DecidableEq, Repr

/-- The final metrics (lines 187-190) from the state at the end of the loop. -/
def finalMetrics (cfg : Config) (s : Sim) : Metrics :=
  { avg_turnaround_time := 1 / (25 - cfg.avg_arrival_rate)
    total_throughput := s.completed_processes / s.clock
    cpu_utilization := s.total_service_time / s.clock
    avg_number_of_processes_in_ready_queue := s.total_ready_queue_time / s.clock }

/-- `main`, run for at most `fuel` iterations of its loop: the metrics it
prints when the loop has ended within them. -/
def main (cfg : Config) (fuel : Nat) : Option Metrics :=
  match run cfg fuel with
  | none => none
  | some s =>
    if s.completed_processes < cfg.target then none
    else some (finalMetrics cfg s)

/-- The event is an arrival, as the test of line 175 sees it. -/
def isArrival (e : EventQueue) : Bool := e.type = "arrival"

/-- The event is a departure. -/
def isDeparture (e : EventQueue) : Bool := e.type = "departure"

/-- Every interval the run can draw is at least zero: the service times, drawn
with `1 / avg_service_rate`, and the times between arrivals, drawn with
`avg_arrival_rate`. -/
def NonnegIntervals (cfg : Config) : Prop :=
  ∀ k : Nat, 0 ≤ cfg.gen k (1 / cfg.avg_service_rate)
    ∧ 0 ≤ cfg.gen k cfg.avg_arrival_rate

/-- Every interval the run can draw is greater than zero. -/
def PositiveIntervals (cfg : Config) : Prop :=
  ∀ k : Nat, 0 < cfg.gen k (1 / cfg.avg_service_rate)
    ∧ 0 < cfg.gen k cfg.avg_arrival_rate

/-- The processes in the books of a state: those completed, those in the
ready queue, and the one in service when the server is busy. -/
def arrived (s : Sim) : Int :=
  s.completed_processes + s.ready_queue.length + (if s.server_idle then 0 else 1)

/-- What holds of the queues whatever the intervals are: the event queue holds
arrivals and departures only, exactly one arrival, and one departure or none
as the server is busy or idle; an idle server has an empty ready queue. -/
structure CountInv (s : Sim) : Prop where
  types : ∀ e ∈ s.manager, e.type = "arrival" ∨ e.type = "departure"
  arrivals : s.manager.countP isArrival = 1
  departures : s.manager.countP isDeparture = if s.server_idle then 0 else 1
  idle_ready : s.server_idle = true → s.ready_queue = []

/-- What holds of the times when no interval is negative: the event queue is in
ascending order of time and no pending event is earlier than the clock, which
is not negative, and no service time kept in the ready queue is negative. -/
structure TimeInv (s : Sim) : Prop where
  sorted : SortedByTime s.manager
  future : ∀ e ∈ s.manager, s.clock ≤ e.event_time
  clock_nonneg : 0 ≤ s.clock
  ready_nonneg : ∀ p ∈ s.ready_queue, 0 ≤ p.service_time

/-- The scenario of the specification: arrival rate 1, service parameter 2,
one completion, and a generator that returns `1 / lambda` at every call. -/
def scenarioCfg : Config :=
  { avg_arrival_rate := 1
    avg_service_rate := 2
    target := 1
    gen := fun _ lambda => 1 / lambda }

/-- The state of the scenario after its first iteration. -/
def scenarioS1 : Sim :=
  { number_of_processes := 2
    total_service_time := 2
    total_ready_queue_time := 0
    completed_processes := 0
    clock := 0
    server_idle := false
    ready_queue := []
    manager := [⟨"arrival", 1, 2⟩, ⟨"departure", 2, 1⟩]
    calls := 2 }

/-- The state of the scenario after its second iteration. -/
def scenarioS2 : Sim :=
  { number_of_processes := 3
    total_service_time := 2
    total_ready_queue_time := 1
    completed_processes := 0
    clock := 1
    server_idle := false
    ready_queue := [⟨2, 2⟩]
    manager := [⟨"departure", 2, 1⟩, ⟨"arrival", 2, 3⟩]
    calls := 4 }

/-- The state of the scenario after its third iteration. -/
def scenarioS3 : Sim :=
  { number_of_processes := 3
    total_service_time := 4
    total_ready_queue_time := 1
    completed_processes := 1
    clock := 2
    server_idle := false
    ready_queue := []
    manager := [⟨"arrival", 2, 3⟩, ⟨"departure", 4, 2⟩]
    calls := 4 }

/-- A run of the source's own generator in which every draw `u` has
`log(u) = -1`, with 1 and 2 read from the console: every service time is 2 and
the arrivals are 1 apart, so the server is never idle. The number of
completions asked for is left open; the source has 10000. -/
def steadyCfg (target : Int) : Config :=
  { avg_arrival_rate := 1
    avg_service_rate := 2
    target := target
    gen := sourceGen (fun _ => -1) }

/-- The state of the steady run when `k` processes are completed and the
departure of the next one is at the head of the event queue. -/
structure SteadyState (k : Nat) (s : Sim) : Prop where
  completed : s.completed_processes = k
  service : s.total_service_time = 2 * k + 2
  clock : s.clock = 2 * k + 1
  busy : s.server_idle = false
  events : ∃ idd ida : Int,
    s.manager = [⟨"departure", 2 * k + 2, idd⟩, ⟨"arrival", 2 * k + 2, ida⟩]
  waiting : s.ready_queue ≠ []
  waiting_service : ∀ p ∈ s.ready_queue, p.service_time = 2

/-- A run whose generator returns its own argument `lambda`, so that the
intervals show with which argument each call was made; 1 and 2 are read from
the console. -/
def probeCfg : Config :=
  { avg_arrival_rate := 1
    avg_service_rate := 2
    target := 10000
    gen := fun _ lambda => lambda }

/-- A run of the source's own generator on console input below zero, `-1` and
`-2`, every draw `u` with `log(u) = -1`, and the 10000 completions of the
source. -/
def negativeCfg : Config :=
  { avg_arrival_rate := -1
    avg_service_rate := -2
    target := 10000
    gen := sourceGen (fun _ => -1) }

/-- The process ids in a state of the loop, all of them values of the 32-bit
counter: `number_of_processes` is one more than the processes in the books,
the pending arrival carries it, the pending departure carries the number
after `completed_processes`, and the ready queue the numbers that follow, in
order. -/
structure IdInv (s : Sim) : Prop where
  counter : s.number_of_processes = wrapInt (arrived s + 1)
  arrival_id : ∀ e ∈ s.manager, e.type = "arrival" →
    e.process_id = s.number_of_processes
  departure_id : ∀ e ∈ s.manager, e.type = "departure" →
    e.process_id = wrapInt (s.completed_processes + 1)
  ready_ids : s.ready_queue.map (fun p : Ready => p.process_id)
    = (List.range s.ready_queue.length).map
        (fun i : Nat => wrapInt (s.completed_processes + 2 + (i : Int)))

/-- A run of the source's own generator in which arrivals pile up behind the
first process: 1 and 8589934592 are read from the console and every draw `u`
has `log(u) = -1`, so the first service takes 8589934592 and the arrivals
are 1 apart. The 10000 completions are those of the source. -/
def pileCfg : Config :=
  { avg_arrival_rate := 1
    avg_service_rate := 8589934592
    target := 10000
    gen := sourceGen (fun _ => -1) }

/-- The state of the piling run after `n` iterations, all of them arrivals:
the next arrival is due at time `n`, behind it the departure of process 1. -/
structure PileState (n : Nat) (s : Sim) : Prop where
  completed : s.completed_processes = 0
  busy : s.server_idle = false
  waiting : s.ready_queue.length + 1 = n
  counter : s.number_of_processes = wrapInt ((n : Int) + 1)
  events : s.manager
    = [⟨"arrival", n, wrapInt ((n : Int) + 1)⟩, ⟨"departure", 8589934592, 1⟩]

/-! ## Lemmas on the event queue -/

theorem scanLoop_append (time : ℚ) (q : List EventQueue) :
    (scanLoop time q).1 ++ (scanLoop time q).2 = q := by
  induction q with
  | nil => simp [scanLoop]
  | cons a q ih =>
    by_cases h : time < a.event_time
    · simp [scanLoop, h]
    · simp [scanLoop, h, ih]

theorem scanLoop_walked (time : ℚ) (q : List EventQueue) :
    ∀ x ∈ (scanLoop time q).1, x.event_time ≤ time := by
  induction q with
  | nil => simp [scanLoop]
  | cons a q ih =>
    by_cases h : time < a.event_time
    · simp [scanLoop, h]
    · intro x hx
      simp only [scanLoop, h, if_false, List.mem_cons] at hx
      rcases hx with rfl | hx
      · exact not_lt.mp h
      · exact ih x hx

theorem scanLoop_rest (time : ℚ) (q : List EventQueue) (hq : SortedByTime q) :
    ∀ x ∈ (scanLoop time q).2, time < x.event_time := by
  induction q with
  | nil => simp [scanLoop]
  | cons a q ih =>
    have hq2 := List.pairwise_cons.mp hq
    by_cases h : time < a.event_time
    · intro x hx
      simp only [scanLoop, h, if_true, List.mem_cons] at hx
      rcases hx with rfl | hx
      · exact h
      · exact lt_of_lt_of_le h (hq2.1 x hx)
    · intro x hx
      simp only [scanLoop, h, if_false] at hx
      exact ih hq2.2 x hx

/-- `InsertEvent` never fails, and its result is the walked part of the scan,
the new node, and the rest of the scan. -/
theorem InsertEvent_eq (q : Event) (ty : String) (t : ℚ) (id : Int) :
    InsertEvent q ty t id
      = some ((scanLoop t q).1 ++ ⟨ty, t, id⟩ :: (scanLoop t q).2) := by
  cases q with
  | nil => simp [InsertEvent, scanLoop]
  | cons a q =>
    by_cases h : t < a.event_time
    · simp [InsertEvent, scanLoop, h]
    · simp [InsertEvent, scanLoop, h]

theorem mem_InsertEvent (q q1 : Event) (ty : String) (t : ℚ) (id : Int)
    (h : InsertEvent q ty t id = some q1) (x : EventQueue) :
    x ∈ q1 ↔ x = ⟨ty, t, id⟩ ∨ x ∈ q := by
  rw [InsertEvent_eq] at h
  have h1 := Option.some.inj h
  subst h1
  have h2 := scanLoop_append t q
  constructor
  · intro hx
    rcases List.mem_append.mp hx with hx | hx
    · right; rw [← h2]; exact List.mem_append_left _ hx
    · rcases List.mem_cons.mp hx with hx | hx
      · left; exact hx
      · right; rw [← h2]; exact List.mem_append_right _ hx
  · intro hx
    rcases hx with hx | hx
    · subst hx; simp
    · rw [← h2] at hx
      rcases List.mem_append.mp hx with hx | hx
      · exact List.mem_append_left _ hx
      · exact List.mem_append_right _ (List.mem_cons_of_mem _ hx)

theorem perm_InsertEvent (q q1 : Event) (ty : String) (t : ℚ) (id : Int)
    (h : InsertEvent q ty t id = some q1) :
    q1.Perm (⟨ty, t, id⟩ :: q) := by
  rw [InsertEvent_eq] at h
  have h1 := Option.some.inj h
  subst h1
  have h2 := scanLoop_append t q
  calc (scanLoop t q).1 ++ ⟨ty, t, id⟩ :: (scanLoop t q).2
      |>.Perm (⟨ty, t, id⟩ :: ((scanLoop t q).1 ++ (scanLoop t q).2)) :=
        List.perm_middle
    _ = ⟨ty, t, id⟩ :: q := by rw [h2]

theorem sorted_InsertEvent (q q1 : Event) (ty : String) (t : ℚ) (id : Int)
    (hq : SortedByTime q) (h : InsertEvent q ty t id = some q1) :
    SortedByTime q1 := by
  rw [InsertEvent_eq] at h
  have h1 := Option.some.inj h
  subst h1
  have h2 := scanLoop_append t q
  have hw := scanLoop_walked t q
  have hr := scanLoop_rest t q hq
  unfold SortedByTime at hq ⊢
  rw [← h2] at hq
  obtain ⟨p1, p2, p3⟩ := List.pairwise_append.mp hq
  refine List.pairwise_append.mpr ⟨p1, ?_, ?_⟩
  · exact List.pairwise_cons.mpr ⟨fun b hb => le_of_lt (hr b hb), p2⟩
  · intro a ha b hb
    rcases List.mem_cons.mp hb with hb | hb
    · subst hb; exact hw a ha
    · exact p3 a ha b hb

/-- Among the events of one time, a new event goes last, and the events of
every other time are untouched. -/
theorem filter_InsertEvent (q q1 : Event) (ty : String) (t : ℚ) (id : Int)
    (hq : SortedByTime q) (h : InsertEvent q ty t id = some q1) (u : ℚ) :
    q1.filter (fun e => e.event_time = u)
      = q.filter (fun e => e.event_time = u)
        ++ (if t = u then [⟨ty, t, id⟩] else []) := by
  rw [InsertEvent_eq] at h
  have h1 := Option.some.inj h
  subst h1
  have h2 := scanLoop_append t q
  have hr := scanLoop_rest t q hq
  have e1 : q.filter (fun e => e.event_time = u)
      = (scanLoop t q).1.filter (fun e => e.event_time = u)
        ++ (scanLoop t q).2.filter (fun e => e.event_time = u) := by
    rw [← List.filter_append, h2]
  rw [e1, List.filter_append]
  by_cases htu : t = u
  · subst htu
    have e2 : (scanLoop t q).2.filter (fun e => e.event_time = t) = [] := by
      apply List.filter_eq_nil_iff.mpr
      intro a ha
      have := hr a ha
      simp only [decide_eq_true_eq]
      intro hau
      rw [hau] at this
      exact lt_irrefl _ this
    simp [List.filter_cons, e2]
  · simp [List.filter_cons, htu]

theorem drain_length (q : Event) : drain q.length q = some (q, []) := by
  induction q with
  | nil => simp [drain]
  | cons a q ih =>
    simp [drain, GetNextEventType, GetNextEventTime, GetNextProcessID, RemoveEvent, ih]

theorem insertAll_spec (es : List EventQueue) :
    ∀ q : Event, SortedByTime q →
      ∃ q1, insertAll q es = some q1 ∧ SortedByTime q1
        ∧ q1.length = q.length + es.length
        ∧ ∀ u : ℚ, q1.filter (fun e => e.event_time = u)
            = q.filter (fun e => e.event_time = u)
              ++ es.filter (fun e => e.event_time = u) := by
  induction es with
  | nil => intro q hq; exact ⟨q, rfl, hq, rfl, by simp⟩
  | cons e es ih =>
    intro q hq
    have h0 := InsertEvent_eq q e.type e.event_time e.process_id
    obtain ⟨q1, h1, s1, l1, f1⟩ :=
      ih _ (sorted_InsertEvent q _ _ _ _ hq h0)
    refine ⟨q1, ?_, s1, ?_, ?_⟩
    · simp only [insertAll, h0]; exact h1
    · rw [l1, (perm_InsertEvent q _ _ _ _ h0).length_eq]
      simp; omega
    · intro u
      rw [f1 u, filter_InsertEvent q _ _ _ _ hq h0 u]
      by_cases hu : e.event_time = u
      · subst hu; simp [List.filter_cons]
      · simp [hu, List.filter_cons]

/-- Two lists in ascending order of time that agree on the events of every
single time, order included, are the same list. -/
theorem sorted_ext (l1 : List EventQueue) :
    ∀ l2 : List EventQueue, SortedByTime l1 → SortedByTime l2 →
      (∀ u : ℚ, l1.filter (fun e => e.event_time = u)
        = l2.filter (fun e => e.event_time = u)) → l1 = l2 := by
  induction l1 with
  | nil =>
    intro l2 _ _ hf
    cases l2 with
    | nil => rfl
    | cons b l2 =>
      have := hf b.event_time
      simp [List.filter_cons] at this
  | cons a l1 ih =>
    intro l2 h1 h2 hf
    cases l2 with
    | nil =>
      have := hf a.event_time
      simp [List.filter_cons] at this
    | cons b l2 =>
      have p1 := List.pairwise_cons.mp h1
      have p2 := List.pairwise_cons.mp h2
      have hab : a.event_time ≤ b.event_time := by
        have hb : b ∈ (a :: l1).filter (fun e => e.event_time = b.event_time) := by
          rw [hf]; simp
        have hb2 := (List.mem_filter.mp hb).1
        rcases List.mem_cons.mp hb2 with hb3 | hb3
        · rw [hb3]
        · exact p1.1 b hb3
      have hba : b.event_time ≤ a.event_time := by
        have ha : a ∈ (b :: l2).filter (fun e => e.event_time = a.event_time) := by
          rw [← hf]; simp
        have ha2 := (List.mem_filter.mp ha).1
        rcases List.mem_cons.mp ha2 with ha3 | ha3
        · rw [ha3]
        · exact p2.1 a ha3
      have hte : a.event_time = b.event_time := le_antisymm hab hba
      have hh := hf a.event_time
      simp only [List.filter_cons, hte, decide_True, if_true] at hh
      have hab2 : a = b := (List.cons.inj hh).1
      subst hab2
      congr 1
      apply ih l2 p1.2 p2.2
      intro u
      have hu := hf u
      by_cases hau : a.event_time = u
      · simp only [List.filter_cons, hau, decide_True, if_true] at hu
        exact (List.cons.inj hu).2
      · simpa [List.filter_cons, hau] using hu

theorem filter_orderedInsert (a : EventQueue) (l : List EventQueue) (u : ℚ) :
    (l.orderedInsert timeLE a).filter (fun e => e.event_time = u)
      = (if a.event_time = u then [a] else [])
        ++ l.filter (fun e => e.event_time = u) := by
  induction l with
  | nil => by_cases h : a.event_time = u <;> simp [List.filter_cons, h]
  | cons b l ih =>
    by_cases hab : timeLE a b
    · rw [List.orderedInsert, if_pos hab]
      by_cases h : a.event_time = u <;> simp [List.filter_cons, h]
    · rw [List.orderedInsert, if_neg hab]
      have hlt : b.event_time < a.event_time := not_le.mp hab
      by_cases hb : b.event_time = u
      · have ha : ¬ a.event_time = u := by
          intro ha; rw [ha, hb] at hlt; exact lt_irrefl _ hlt
        simp [List.filter_cons, hb, ih, ha]
      · simp [List.filter_cons, hb, ih]

theorem filter_insertionSort (l : List EventQueue) (u : ℚ) :
    (l.insertionSort timeLE).filter (fun e => e.event_time = u)
      = l.filter (fun e => e.event_time = u) := by
  induction l with
  | nil => simp
  | cons a l ih =>
    rw [List.insertionSort, filter_orderedInsert, ih]
    by_cases h : a.event_time = u <;> simp [List.filter_cons, h]

theorem sorted_insertionSort_time (l : List EventQueue) :
    SortedByTime (l.insertionSort timeLE) :=
  List.sorted_insertionSort timeLE l

/-! ## The event queue: claims -/

/-- C1. Events inserted with `InsertEvent` into the empty queue and then read
and removed at the head, as many times as there were insertions, come out in
ascending order of time, the events of one time in the order of their
insertion: what comes out is the stable sort of the input by time, and the
queue is empty afterwards. -/
theorem drain_insertAll_stable_sort (es : List EventQueue) :
    ∃ q out, insertAll [] es = some q
      ∧ drain es.length q = some (out, [])
      ∧ SortedByTime out
      ∧ (∀ u : ℚ, out.filter (fun e => e.event_time = u)
          = es.filter (fun e => e.event_time = u))
      ∧ out.Perm es
      ∧ out = es.insertionSort timeLE := by
  obtain ⟨q, h1, s1, l1, f1⟩ := insertAll_spec es [] List.Pairwise.nil
  have hf : ∀ u : ℚ, q.filter (fun e => e.event_time = u)
      = es.filter (fun e => e.event_time = u) := by
    intro u; simpa using f1 u
  have heq : q = es.insertionSort timeLE := by
    apply sorted_ext q _ s1 (sorted_insertionSort_time es)
    intro u
    rw [hf u, filter_insertionSort]
  have hl : es.length = q.length := by simpa using l1.symm
  refine ⟨q, q, h1, ?_, s1, hf, ?_, heq⟩
  · rw [hl]; exact drain_length q
  · rw [heq]; exact List.perm_insertionSort timeLE es

/-- C2. `InsertEvent` on a queue in ascending order of time succeeds and gives
a queue in ascending order again: the old queue split in two with the new
event in between, every event before it of a time at most the new time and
every event behind it of a greater time. -/
theorem InsertEvent_sorted_position (q : Event) (ty : String) (t : ℚ) (id : Int)
    (hq : SortedByTime q) :
    ∃ before after, q = before ++ after
      ∧ InsertEvent q ty t id = some (before ++ ⟨ty, t, id⟩ :: after)
      ∧ SortedByTime (before ++ ⟨ty, t, id⟩ :: after)
      ∧ (∀ x ∈ before, x.event_time ≤ t)
      ∧ (∀ x ∈ after, t < x.event_time) := by
  refine ⟨(scanLoop t q).1, (scanLoop t q).2, (scanLoop_append t q).symm,
    InsertEvent_eq q ty t id, ?_, scanLoop_walked t q, scanLoop_rest t q hq⟩
  exact sorted_InsertEvent q _ ty t id hq (InsertEvent_eq q ty t id)

/-- C2 at a queue holding an event of the new time: the new event goes behind it. -/
theorem InsertEvent_sorted_position_witness :
    SortedByTime [⟨"arrival", 1, 1⟩, ⟨"departure", 2, 2⟩]
      ∧ ∃ before after,
        ([⟨"arrival", 1, 1⟩, ⟨"departure", 2, 2⟩] : Event) = before ++ after
        ∧ InsertEvent [⟨"arrival", 1, 1⟩, ⟨"departure", 2, 2⟩] "arrival" 1 3
            = some (before ++ ⟨"arrival", 1, 3⟩ :: after)
        ∧ SortedByTime (before ++ ⟨"arrival", 1, 3⟩ :: after)
        ∧ (∀ x ∈ before, x.event_time ≤ 1)
        ∧ (∀ x ∈ after, (1 : ℚ) < x.event_time) :=
  ⟨by simp [SortedByTime],
   InsertEvent_sorted_position [⟨"arrival", 1, 1⟩, ⟨"departure", 2, 2⟩] "arrival" 1 3
    (by simp [SortedByTime])⟩

theorem sorted_RemoveEvent (q : Event) (hq : SortedByTime q) :
    SortedByTime (RemoveEvent q) := by
  cases q with
  | nil => exact hq
  | cons a q => exact (List.pairwise_cons.mp hq).2

theorem applyOps_sorted (ops : List QueueOp) :
    ∀ q : Event, SortedByTime q →
      ∃ q1, applyOps q ops = some q1 ∧ SortedByTime q1 := by
  induction ops with
  | nil => intro q hq; exact ⟨q, rfl, hq⟩
  | cons op ops ih =>
    intro q hq
    cases op with
    | insert ty t id =>
      have h0 := InsertEvent_eq q ty t id
      obtain ⟨q1, h1, s1⟩ := ih _ (sorted_InsertEvent q _ _ _ _ hq h0)
      exact ⟨q1, by simp only [applyOps, h0]; exact h1, s1⟩
    | remove =>
      obtain ⟨q1, h1, s1⟩ := ih _ (sorted_RemoveEvent q hq)
      exact ⟨q1, by simp only [applyOps]; exact h1, s1⟩

theorem head_le_of_sorted (q : Event) (hq : SortedByTime q) (t : ℚ)
    (ht : GetNextEventTime q = some t) : ∀ e ∈ q, t ≤ e.event_time := by
  cases q with
  | nil => simp [GetNextEventTime] at ht
  | cons a q =>
    simp only [GetNextEventTime, Option.some.injEq] at ht
    subst ht
    intro e he
    rcases List.mem_cons.mp he with he | he
    · rw [he]
    · exact (List.pairwise_cons.mp hq).1 e he

/-- C3. Every sequence of `InsertEvent` and `RemoveEvent` calls on the empty
queue runs through and leaves a queue which, when it is not empty, has a head
whose time `GetNextEventTime` returns and which is at most the time of every
event in the queue. -/
theorem head_is_minimum_of_reachable (ops : List QueueOp) :
    ∃ q, applyOps [] ops = some q
      ∧ (q ≠ [] → ∃ t, GetNextEventTime q = some t
          ∧ ∀ e ∈ q, t ≤ e.event_time) := by
  obtain ⟨q, h1, s1⟩ := applyOps_sorted ops [] List.Pairwise.nil
  refine ⟨q, h1, ?_⟩
  intro hne
  cases q with
  | nil => exact absurd rfl hne
  | cons a q =>
    exact ⟨a.event_time, rfl, head_le_of_sorted (a :: q) s1 _ rfl⟩

/-! ## The 32-bit counter -/

theorem wrapInt_of_range (x : Int) (h1 : -2147483648 ≤ x) (h2 : x < 2147483648) :
    wrapInt x = x := by
  unfold wrapInt
  omega

theorem wrapInt_succ (x : Int) : wrapInt (wrapInt x + 1) = wrapInt (x + 1) := by
  unfold wrapInt
  omega

theorem wrapInt_two : wrapInt 2 = 2 := wrapInt_of_range 2 (by omega) (by omega)

theorem wrapInt_three : wrapInt 3 = 3 := wrapInt_of_range 3 (by omega) (by omega)

theorem wrapInt_overflow : wrapInt 2147483648 = -2147483648 := by
  unfold wrapInt
  omega

/-! ## The loop body, case by case -/

theorem InsertEvent_total (q : Event) (ty : String) (t : ℚ) (id : Int) :
    ∃ q1, InsertEvent q ty t id = some q1 :=
  ⟨_, InsertEvent_eq q ty t id⟩

theorem loopBody_arrival_idle (cfg : Config) (s : Sim) (e : EventQueue) (rest m1 m2 : Event)
    (hm : s.manager = e :: rest) (he : e.type = "arrival") (hi : s.server_idle = true)
    (h1 : InsertEvent rest "departure"
      (e.event_time + cfg.gen s.calls (1 / cfg.avg_service_rate)) e.process_id = some m1)
    (h2 : InsertEvent m1 "arrival"
      (e.event_time + cfg.gen (s.calls + 1) cfg.avg_arrival_rate)
      (wrapInt (s.number_of_processes + 1)) = some m2) :
    loopBody cfg s = some
      { number_of_processes := wrapInt (s.number_of_processes + 1)
        total_service_time :=
          s.total_service_time + cfg.gen s.calls (1 / cfg.avg_service_rate)
        total_ready_queue_time := s.total_ready_queue_time + s.ready_queue.length
        completed_processes := s.completed_processes
        clock := e.event_time
        server_idle := false
        ready_queue := s.ready_queue
        manager := m2
        calls := s.calls + 2 } := by
  simp [loopBody, HandleArrival, GetNextEventType, GetNextEventTime, GetNextProcessID,
    RemoveEvent, hm, he, hi, h1, h2, -one_div]

theorem loopBody_arrival_busy (cfg : Config) (s : Sim) (e : EventQueue) (rest m2 : Event)
    (hm : s.manager = e :: rest) (he : e.type = "arrival") (hi : s.server_idle = false)
    (h2 : InsertEvent rest "arrival"
      (e.event_time + cfg.gen (s.calls + 1) cfg.avg_arrival_rate)
      (wrapInt (s.number_of_processes + 1)) = some m2) :
    loopBody cfg s = some
      { number_of_processes := wrapInt (s.number_of_processes + 1)
        total_service_time := s.total_service_time
        total_ready_queue_time :=
          s.total_ready_queue_time + ((s.ready_queue.length + 1 : Nat) : ℚ)
        completed_processes := s.completed_processes
        clock := e.event_time
        server_idle := false
        ready_queue := s.ready_queue
          ++ [⟨cfg.gen s.calls (1 / cfg.avg_service_rate), e.process_id⟩]
        manager := m2
        calls := s.calls + 2 } := by
  simp [loopBody, HandleArrival, GetNextEventType, GetNextEventTime, GetNextProcessID,
    RemoveEvent, hm, he, hi, h2]

theorem loopBody_departure_empty (cfg : Config) (s : Sim) (e : EventQueue) (rest : Event)
    (hm : s.manager = e :: rest) (he : e.type ≠ "arrival") (hr : s.ready_queue = []) :
    loopBody cfg s = some
      { number_of_processes := s.number_of_processes
        total_service_time := s.total_service_time
        total_ready_queue_time := s.total_ready_queue_time
        completed_processes := s.completed_processes + 1
        clock := e.event_time
        server_idle := true
        ready_queue := []
        manager := rest
        calls := s.calls } := by
  simp [loopBody, HandleDeparture, GetNextEventType, GetNextEventTime, GetNextProcessID,
    RemoveEvent, hm, he, hr]

theorem loopBody_departure_next (cfg : Config) (s : Sim) (e : EventQueue) (rest m1 : Event)
    (p : Ready) (ps : List Ready)
    (hm : s.manager = e :: rest) (he : e.type ≠ "arrival") (hr : s.ready_queue = p :: ps)
    (h1 : InsertEvent rest "departure" (e.event_time + p.service_time) p.process_id
      = some m1) :
    loopBody cfg s = some
      { number_of_processes := s.number_of_processes
        total_service_time := s.total_service_time + p.service_time
        total_ready_queue_time := s.total_ready_queue_time + (ps.length : ℚ)
        completed_processes := s.completed_processes + 1
        clock := e.event_time
        server_idle := false
        ready_queue := ps
        manager := m1
        calls := s.calls } := by
  simp [loopBody, HandleDeparture, GetNextEventType, GetNextEventTime, GetNextProcessID,
    RemoveEvent, hm, he, hr, h1]



theorem countP_InsertEvent (p : EventQueue → Bool) (q q1 : Event) (ty : String) (t : ℚ)
    (id : Int) (h : InsertEvent q ty t id = some q1) :
    q1.countP p = q.countP p + (if p ⟨ty, t, id⟩ then 1 else 0) := by
  rw [(perm_InsertEvent q q1 ty t id h).countP_eq, List.countP_cons]

theorem isArrival_arrival (t : ℚ) (id : Int) : isArrival ⟨"arrival", t, id⟩ = true := by
  simp [isArrival]

theorem isArrival_departure (t : ℚ) (id : Int) : isArrival ⟨"departure", t, id⟩ = false := by
  have : ¬ ("departure" = "arrival") := by decide
  simp [isArrival, this]

theorem isDeparture_arrival (t : ℚ) (id : Int) : isDeparture ⟨"arrival", t, id⟩ = false := by
  have : ¬ ("arrival" = "departure") := by decide
  simp [isDeparture, this]

theorem isDeparture_departure (t : ℚ) (id : Int) :
    isDeparture ⟨"departure", t, id⟩ = true := by
  simp [isDeparture]

/-- One iteration of the loop body from a state with the counting invariant:
the queue has a head, the iteration succeeds, and the invariant holds again;
an arrival adds one process to the books, a departure completes one. -/
theorem loopBody_CountInv (cfg : Config) (s : Sim) (h : CountInv s) :
    ∃ e rest s1, s.manager = e :: rest ∧ loopBody cfg s = some s1 ∧ CountInv s1
      ∧ s1.clock = e.event_time
      ∧ arrived s1 = arrived s + (if isArrival e then 1 else 0)
      ∧ s1.completed_processes = s.completed_processes + (if isArrival e then 0 else 1) := by
  obtain ⟨hty, harr, hdep, hidle⟩ := h
  cases hm : s.manager with
  | nil => rw [hm] at harr; simp at harr
  | cons e rest =>
    rw [hm] at hty harr hdep
    have htyr : ∀ x ∈ rest, x.type = "arrival" ∨ x.type = "departure" :=
      fun x hx => hty x (List.mem_cons_of_mem _ hx)
    by_cases he : e.type = "arrival"
    · have hea : isArrival e = true := by simp [isArrival, he]
      have hed : isDeparture e = false := by
        have : ¬ ("arrival" = "departure") := by decide
        simp [isDeparture, he, this]
      rw [List.countP_cons, hea] at harr
      rw [List.countP_cons, hed] at hdep
      simp only [if_true, add_left_eq_self] at harr
      simp only [Bool.false_eq_true, if_false, add_zero] at hdep
      cases hi : s.server_idle with
      | true =>
        rw [hi] at hdep
        obtain ⟨m1, h1⟩ := InsertEvent_total rest "departure"
          (e.event_time + cfg.gen s.calls (1 / cfg.avg_service_rate)) e.process_id
        obtain ⟨m2, h2⟩ := InsertEvent_total m1 "arrival"
          (e.event_time + cfg.gen (s.calls + 1) cfg.avg_arrival_rate)
          (wrapInt (s.number_of_processes + 1))
        refine ⟨e, rest, _, rfl, loopBody_arrival_idle cfg s e rest m1 m2 hm he hi h1 h2,
          ⟨?_, ?_, ?_, ?_⟩, rfl, by simp [arrived, hi, hea], by simp [hea]⟩
        · intro x hx
          rcases (mem_InsertEvent _ _ _ _ _ h2 x).mp hx with hx | hx
          · left; rw [hx]
          · rcases (mem_InsertEvent _ _ _ _ _ h1 x).mp hx with hx | hx
            · right; rw [hx]
            · exact htyr x hx
        · show m2.countP isArrival = 1
          rw [countP_InsertEvent _ _ _ _ _ _ h2, countP_InsertEvent _ _ _ _ _ _ h1, harr,
            isArrival_arrival, isArrival_departure]
          simp
        · show m2.countP isDeparture = _
          rw [countP_InsertEvent _ _ _ _ _ _ h2, countP_InsertEvent _ _ _ _ _ _ h1, hdep,
            isDeparture_arrival, isDeparture_departure]
          simp
        · intro hcontra; simp at hcontra
      | false =>
        rw [hi] at hdep
        obtain ⟨m2, h2⟩ := InsertEvent_total rest "arrival"
          (e.event_time + cfg.gen (s.calls + 1) cfg.avg_arrival_rate)
          (wrapInt (s.number_of_processes + 1))
        refine ⟨e, rest, _, rfl, loopBody_arrival_busy cfg s e rest m2 hm he hi h2,
          ⟨?_, ?_, ?_, ?_⟩, rfl, ?_, by simp [hea]⟩
        · intro x hx
          rcases (mem_InsertEvent _ _ _ _ _ h2 x).mp hx with hx | hx
          · left; rw [hx]
          · exact htyr x hx
        · show m2.countP isArrival = 1
          rw [countP_InsertEvent _ _ _ _ _ _ h2, harr, isArrival_arrival]
          simp
        · show m2.countP isDeparture = _
          rw [countP_InsertEvent _ _ _ _ _ _ h2, hdep, isDeparture_arrival]
          simp
        · intro hcontra; simp at hcontra
        · simp only [arrived, hi, hea, Bool.false_eq_true, if_false, if_true,
            List.length_append, List.length_singleton]
          push_cast
          ring
    · have hed0 : e.type = "departure" := by
        rcases hty e (List.mem_cons_self _ _) with h0 | h0
        · exact absurd h0 he
        · exact h0
      have hea : isArrival e = false := by simp [isArrival, he]
      have hed : isDeparture e = true := by simp [isDeparture, hed0]
      rw [List.countP_cons, hea] at harr
      rw [List.countP_cons, hed] at hdep
      simp only [Bool.false_eq_true, if_false, add_zero] at harr
      simp only [if_true] at hdep
      have hi : s.server_idle = false := by
        cases hi : s.server_idle with
        | true => rw [hi] at hdep; simp at hdep
        | false => rfl
      rw [hi] at hdep
      simp only [Bool.false_eq_true, if_false, add_left_eq_self] at hdep
      cases hr : s.ready_queue with
      | nil =>
        refine ⟨e, rest, _, rfl, loopBody_departure_empty cfg s e rest hm he hr,
          ⟨htyr, harr, ?_, ?_⟩, rfl, ?_, by simp [hea]⟩
        · show rest.countP isDeparture = _
          rw [hdep]; simp
        · intro _; rfl
        · simp only [arrived, hi, hr, hea, Bool.false_eq_true, if_false, if_true,
            List.length_nil]
          push_cast
          ring
      | cons p ps =>
        obtain ⟨m1, h1⟩ := InsertEvent_total rest "departure"
          (e.event_time + p.service_time) p.process_id
        refine ⟨e, rest, _, rfl, loopBody_departure_next cfg s e rest m1 p ps hm he hr h1,
          ⟨?_, ?_, ?_, ?_⟩, rfl, ?_, by simp [hea]⟩
        · intro x hx
          rcases (mem_InsertEvent _ _ _ _ _ h1 x).mp hx with hx | hx
          · right; rw [hx]
          · exact htyr x hx
        · show m1.countP isArrival = 1
          rw [countP_InsertEvent _ _ _ _ _ _ h1, harr, isArrival_departure]
          simp
        · show m1.countP isDeparture = _
          rw [countP_InsertEvent _ _ _ _ _ _ h1, hdep, isDeparture_departure]
          simp
        · intro hcontra; simp at hcontra
        · simp only [arrived, hi, hr, hea, Bool.false_eq_true, if_false,
            List.length_cons]
          push_cast
          ring

/-! ## The counting invariant -/

theorem initial_eq : initial = some startState := by
  simp [initial, InsertEvent, startState]

theorem initial_CountInv (s0 : Sim) (h : initial = some s0) : CountInv s0 := by
  rw [initial_eq] at h
  have h1 := Option.some.inj h
  subst h1
  refine ⟨?_, ?_, ?_, ?_⟩
  · intro e he
    simp only [startState, List.mem_singleton] at he
    left; rw [he]
  · simp [startState, isArrival_arrival]
  · simp [startState, isDeparture_arrival]
  · intro _; rfl

/-- The loop keeps the counting invariant, never fails, and the arrivals among
the events it has processed are the processes that came into the books, the
others are counted by `completed_processes`. -/
theorem mainLoop_CountInv (cfg : Config) (n : Nat) :
    ∀ s : Sim, CountInv s →
      ∃ s1, mainLoop cfg n s = some s1 ∧ CountInv s1
        ∧ ((processed cfg n s).countP isArrival : Int) = arrived s1 - arrived s
        ∧ ((processed cfg n s).countP (fun e => !isArrival e) : Int)
            = s1.completed_processes - s.completed_processes := by
  induction n with
  | zero => intro s hs; exact ⟨s, rfl, hs, by simp [processed], by simp [processed]⟩
  | succ n ih =>
    intro s hs
    by_cases hg : s.completed_processes < cfg.target
    · obtain ⟨e, rest, s1, hm, hb, hs1, _, hnum, hcomp⟩ := loopBody_CountInv cfg s hs
      obtain ⟨s2, h2, hs2, hc2, hd2⟩ := ih s1 hs1
      refine ⟨s2, ?_, hs2, ?_, ?_⟩
      · simp only [mainLoop, hg, if_true, hb]; exact h2
      · simp only [processed, hg, if_true, hm, hb, List.countP_cons]
        push_cast
        rw [hc2, hnum]
        by_cases hea : isArrival e = true
        · simp [hea]; ring
        · simp [hea]
      · simp only [processed, hg, if_true, hm, hb, List.countP_cons]
        push_cast
        rw [hd2, hcomp]
        by_cases hea : isArrival e = true
        · simp [hea]
        · simp [hea]; ring
    · exact ⟨s, by simp [mainLoop, hg], hs, by simp [processed, hg], by simp [processed, hg]⟩

theorem run_CountInv (cfg : Config) (n : Nat) :
    ∃ s, run cfg n = some s ∧ CountInv s
      ∧ ((runProcessed cfg n).countP isArrival : Int) = arrived s
      ∧ ((runProcessed cfg n).countP (fun e => !isArrival e) : Int)
          = s.completed_processes := by
  obtain ⟨s1, h1, hs1, hc, hd⟩ :=
    mainLoop_CountInv cfg n _ (initial_CountInv _ initial_eq)
  refine ⟨s1, ?_, hs1, ?_, ?_⟩
  · simp only [run, initial_eq]; exact h1
  · simp only [runProcessed, initial_eq]; rw [hc]; simp [arrived, startState]
  · simp only [runProcessed, initial_eq]; rw [hd]; simp [startState]

/-! ## The time invariant -/

/-- The four ways one iteration of the loop body can go, with the state each
leaves; on an empty event queue the body has no result. -/
theorem loopBody_cases (cfg : Config) (s s1 : Sim) (h : loopBody cfg s = some s1) :
    ∃ e rest, s.manager = e :: rest ∧
      ((e.type = "arrival" ∧ s.server_idle = true ∧ ∃ m1 m2,
          InsertEvent rest "departure"
            (e.event_time + cfg.gen s.calls (1 / cfg.avg_service_rate)) e.process_id
            = some m1
          ∧ InsertEvent m1 "arrival"
            (e.event_time + cfg.gen (s.calls + 1) cfg.avg_arrival_rate)
            (wrapInt (s.number_of_processes + 1)) = some m2
          ∧ s1 = { number_of_processes := wrapInt (s.number_of_processes + 1)
                   total_service_time :=
                     s.total_service_time + cfg.gen s.calls (1 / cfg.avg_service_rate)
                   total_ready_queue_time :=
                     s.total_ready_queue_time + s.ready_queue.length
                   completed_processes := s.completed_processes
                   clock := e.event_time
                   server_idle := false
                   ready_queue := s.ready_queue
                   manager := m2
                   calls := s.calls + 2 })
      ∨ (e.type = "arrival" ∧ s.server_idle = false ∧ ∃ m2,
          InsertEvent rest "arrival"
            (e.event_time + cfg.gen (s.calls + 1) cfg.avg_arrival_rate)
            (wrapInt (s.number_of_processes + 1)) = some m2
          ∧ s1 = { number_of_processes := wrapInt (s.number_of_processes + 1)
                   total_service_time := s.total_service_time
                   total_ready_queue_time :=
                     s.total_ready_queue_time + ((s.ready_queue.length + 1 : Nat) : ℚ)
                   completed_processes := s.completed_processes
                   clock := e.event_time
                   server_idle := false
                   ready_queue := s.ready_queue
                     ++ [⟨cfg.gen s.calls (1 / cfg.avg_service_rate), e.process_id⟩]
                   manager := m2
                   calls := s.calls + 2 })
      ∨ (e.type ≠ "arrival" ∧ s.ready_queue = []
          ∧ s1 = { number_of_processes := s.number_of_processes
                   total_service_time := s.total_service_time
                   total_ready_queue_time := s.total_ready_queue_time
                   completed_processes := s.completed_processes + 1
                   clock := e.event_time
                   server_idle := true
                   ready_queue := []
                   manager := rest
                   calls := s.calls })
      ∨ (e.type ≠ "arrival" ∧ ∃ p ps m1, s.ready_queue = p :: ps
          ∧ InsertEvent rest "departure" (e.event_time + p.service_time) p.process_id
            = some m1
          ∧ s1 = { number_of_processes := s.number_of_processes
                   total_service_time := s.total_service_time + p.service_time
                   total_ready_queue_time := s.total_ready_queue_time + (ps.length : ℚ)
                   completed_processes := s.completed_processes + 1
                   clock := e.event_time
                   server_idle := false
                   ready_queue := ps
                   manager := m1
                   calls := s.calls })) := by
  cases hm : s.manager with
  | nil => simp [loopBody, GetNextEventType, hm] at h
  | cons e rest =>
    refine ⟨e, rest, rfl, ?_⟩
    by_cases he : e.type = "arrival"
    · cases hi : s.server_idle with
      | true =>
        obtain ⟨m1, h1⟩ := InsertEvent_total rest "departure"
          (e.event_time + cfg.gen s.calls (1 / cfg.avg_service_rate)) e.process_id
        obtain ⟨m2, h2⟩ := InsertEvent_total m1 "arrival"
          (e.event_time + cfg.gen (s.calls + 1) cfg.avg_arrival_rate)
          (wrapInt (s.number_of_processes + 1))
        rw [loopBody_arrival_idle cfg s e rest m1 m2 hm he hi h1 h2] at h
        exact Or.inl ⟨he, rfl, m1, m2, h1, h2, (Option.some.inj h).symm⟩
      | false =>
        obtain ⟨m2, h2⟩ := InsertEvent_total rest "arrival"
          (e.event_time + cfg.gen (s.calls + 1) cfg.avg_arrival_rate)
          (wrapInt (s.number_of_processes + 1))
        rw [loopBody_arrival_busy cfg s e rest m2 hm he hi h2] at h
        exact Or.inr (Or.inl ⟨he, rfl, m2, h2, (Option.some.inj h).symm⟩)
    · cases hr : s.ready_queue with
      | nil =>
        rw [loopBody_departure_empty cfg s e rest hm he hr] at h
        exact Or.inr (Or.inr (Or.inl ⟨he, rfl, (Option.some.inj h).symm⟩))
      | cons p ps =>
        obtain ⟨m1, h1⟩ := InsertEvent_total rest "departure"
          (e.event_time + p.service_time) p.process_id
        rw [loopBody_departure_next cfg s e rest m1 p ps hm he hr h1] at h
        exact Or.inr (Or.inr (Or.inr ⟨he, p, ps, m1, rfl, h1, (Option.some.inj h).symm⟩))

theorem sorted_future_InsertEvent (q q1 : Event) (ty : String) (c d : ℚ) (id : Int)
    (hq : SortedByTime q) (hf : ∀ x ∈ q, c ≤ x.event_time) (hd : 0 ≤ d)
    (h : InsertEvent q ty (c + d) id = some q1) :
    SortedByTime q1 ∧ ∀ x ∈ q1, c ≤ x.event_time := by
  refine ⟨sorted_InsertEvent q q1 ty _ id hq h, ?_⟩
  intro x hx
  rcases (mem_InsertEvent q q1 ty _ id h x).mp hx with hx | hx
  · rw [hx]; show c ≤ c + d; linarith
  · exact hf x hx

/-- One iteration of the loop body keeps the time invariant and does not set
the clock back, when no interval is negative. -/
theorem loopBody_TimeInv (cfg : Config) (hn : NonnegIntervals cfg) (s s1 : Sim)
    (ht : TimeInv s) (h : loopBody cfg s = some s1) :
    TimeInv s1 ∧ s.clock ≤ s1.clock := by
  obtain ⟨hs, hf, hc, hr⟩ := ht
  obtain ⟨e, rest, hm, hcase⟩ := loopBody_cases cfg s s1 h
  rw [hm] at hs hf
  have hs2 := List.pairwise_cons.mp hs
  have hce : s.clock ≤ e.event_time := hf e (List.mem_cons_self _ _)
  have hrest : ∀ x ∈ rest, e.event_time ≤ x.event_time := hs2.1
  rcases hcase with ⟨_, _, m1, m2, h1, h2, rfl⟩ | ⟨_, _, m2, h2, rfl⟩ | ⟨_, _, rfl⟩
    | ⟨_, p, ps, m1, hrq, h1, rfl⟩
  · obtain ⟨a1, a2⟩ := sorted_future_InsertEvent rest m1 _ _ _ _ hs2.2 hrest
      (hn s.calls).1 h1
    obtain ⟨b1, b2⟩ := sorted_future_InsertEvent m1 m2 _ _ _ _ a1 a2
      (hn (s.calls + 1)).2 h2
    exact ⟨⟨b1, b2, le_trans hc hce, hr⟩, hce⟩
  · obtain ⟨b1, b2⟩ := sorted_future_InsertEvent rest m2 _ _ _ _ hs2.2 hrest
      (hn (s.calls + 1)).2 h2
    refine ⟨⟨b1, b2, le_trans hc hce, ?_⟩, hce⟩
    intro p hp
    rcases List.mem_append.mp hp with hp | hp
    · exact hr p hp
    · simp only [List.mem_singleton] at hp
      rw [hp]; exact (hn s.calls).1
  · exact ⟨⟨hs2.2, hrest, le_trans hc hce, by intro p hp; simp at hp⟩, hce⟩
  · have hp0 : 0 ≤ p.service_time := hr p (by rw [hrq]; exact List.mem_cons_self _ _)
    obtain ⟨a1, a2⟩ := sorted_future_InsertEvent rest m1 _ _ _ _ hs2.2 hrest hp0 h1
    refine ⟨⟨a1, a2, le_trans hc hce, ?_⟩, hce⟩
    intro x hx
    exact hr x (by rw [hrq]; exact List.mem_cons_of_mem _ hx)

theorem initial_TimeInv (s0 : Sim) (h : initial = some s0) : TimeInv s0 := by
  rw [initial_eq] at h
  have h1 := Option.some.inj h
  subst h1
  refine ⟨?_, ?_, ?_, ?_⟩
  · simp [SortedByTime, startState]
  · intro e he
    simp only [startState, List.mem_singleton] at he
    rw [he]; exact le_refl _
  · exact le_refl _
  · intro p hp; simp [startState] at hp

theorem mainLoop_TimeInv (cfg : Config) (hn : NonnegIntervals cfg) (n : Nat) :
    ∀ s s1 : Sim, TimeInv s → mainLoop cfg n s = some s1 →
      TimeInv s1 ∧ s.clock ≤ s1.clock := by
  induction n with
  | zero =>
    intro s s1 hs h
    simp only [mainLoop, Option.some.injEq] at h
    subst h
    exact ⟨hs, le_refl _⟩
  | succ n ih =>
    intro s s1 hs h
    by_cases hg : s.completed_processes < cfg.target
    · simp only [mainLoop, hg, if_true] at h
      cases hb : loopBody cfg s with
      | none => rw [hb] at h; simp at h
      | some s2 =>
        rw [hb] at h
        obtain ⟨t2, c2⟩ := loopBody_TimeInv cfg hn s s2 hs hb
        obtain ⟨t1, c1⟩ := ih s2 s1 t2 h
        exact ⟨t1, le_trans c2 c1⟩
    · simp only [mainLoop, hg, if_false, Option.some.injEq] at h
      subst h
      exact ⟨hs, le_refl _⟩

theorem run_TimeInv (cfg : Config) (hn : NonnegIntervals cfg) (n : Nat) (s : Sim)
    (h : run cfg n = some s) : TimeInv s := by
  simp only [run, initial_eq] at h
  exact (mainLoop_TimeInv cfg hn n _ s (initial_TimeInv _ initial_eq) h).1

/-! ## The main loop: claims -/

/-- C5. When no generated interval is negative, every state the main loop
reaches has a clock that is not negative, and the next iteration reads a head
time that is at least that clock and sets the clock to it. -/
theorem clock_monotone (cfg : Config) (hn : NonnegIntervals cfg) (n : Nat) :
    ∃ s t s1, run cfg n = some s ∧ 0 ≤ s.clock
      ∧ GetNextEventTime s.manager = some t
      ∧ loopBody cfg s = some s1
      ∧ s1.clock = t ∧ s.clock ≤ t ∧ 0 ≤ t := by
  obtain ⟨s, h, hc, _, _⟩ := run_CountInv cfg n
  have ht := run_TimeInv cfg hn n s h
  obtain ⟨e, rest, s1, hm, hb, _, hclk, _, _⟩ := loopBody_CountInv cfg s hc
  have hle := (loopBody_TimeInv cfg hn s s1 ht hb).2
  rw [hclk] at hle
  refine ⟨s, e.event_time, s1, h, ht.clock_nonneg, ?_, hb, hclk, hle,
    le_trans ht.clock_nonneg hle⟩
  rw [hm]; rfl

/-- C6. At the start of every iteration of the main loop, whatever the
intervals, the event queue holds an arrival, so it has a head: the three
getters return the fields of the head, `RemoveEvent` removes it, and the
iteration runs through. -/
theorem event_queue_never_empty (cfg : Config) (n : Nat) :
    ∃ s e rest s1, run cfg n = some s
      ∧ (∃ a ∈ s.manager, a.type = "arrival")
      ∧ s.manager = e :: rest
      ∧ GetNextEventType s.manager = some e.type
      ∧ GetNextEventTime s.manager = some e.event_time
      ∧ GetNextProcessID s.manager = some e.process_id
      ∧ RemoveEvent s.manager = rest
      ∧ loopBody cfg s = some s1 := by
  obtain ⟨s, h, hc, _, _⟩ := run_CountInv cfg n
  obtain ⟨e, rest, s1, hm, hb, _, _, _, _⟩ := loopBody_CountInv cfg s hc
  have hpos : 0 < s.manager.countP isArrival := by rw [hc.arrivals]; exact Nat.one_pos
  obtain ⟨a, ha, hpa⟩ := List.countP_pos_iff.mp hpos
  refine ⟨s, e, rest, s1, h, ⟨a, ha, ?_⟩, hm, ?_, ?_, ?_, ?_, hb⟩
  · simpa [isArrival] using hpa
  · rw [hm]; rfl
  · rw [hm]; rfl
  · rw [hm]; rfl
  · rw [hm]; rfl

/-- C7. In the initial state and after every iteration of the main loop the
server is busy exactly when one departure is pending in the event queue, and
when the server is idle no departure is pending and the ready queue is empty. -/
theorem busy_iff_one_departure (cfg : Config) (n : Nat) :
    ∃ s, run cfg n = some s
      ∧ (s.server_idle = false ↔ s.manager.countP isDeparture = 1)
      ∧ (s.server_idle = true →
          s.manager.countP isDeparture = 0 ∧ s.ready_queue = []) := by
  obtain ⟨s, h, hc, _, _⟩ := run_CountInv cfg n
  refine ⟨s, h, ?_, ?_⟩
  · rw [hc.departures]
    cases s.server_idle <;> simp
  · intro hi
    refine ⟨?_, hc.idle_ready hi⟩
    rw [hc.departures, hi]; simp

theorem scenario_nonneg : NonnegIntervals scenarioCfg := by
  intro k
  simp [scenarioCfg]

/-- C5 on the scenario of the specification, two iterations in. -/
theorem clock_monotone_witness :
    NonnegIntervals scenarioCfg
      ∧ ∃ s t s1, run scenarioCfg 2 = some s ∧ 0 ≤ s.clock
        ∧ GetNextEventTime s.manager = some t
        ∧ loopBody scenarioCfg s = some s1
        ∧ s1.clock = t ∧ s.clock ≤ t ∧ 0 ≤ t :=
  ⟨scenario_nonneg, clock_monotone scenarioCfg scenario_nonneg 2⟩

theorem InsertEvent_lt_head (a : EventQueue) (q : Event) (ty : String) (t : ℚ) (id : Int)
    (h : t < a.event_time) :
    InsertEvent (a :: q) ty t id = some (⟨ty, t, id⟩ :: a :: q) := by
  simp [InsertEvent, h]

theorem mainLoop_step (cfg : Config) (n : Nat) (s s1 : Sim)
    (hg : s.completed_processes < cfg.target) (hb : loopBody cfg s = some s1) :
    mainLoop cfg (n + 1) s = mainLoop cfg n s1 := by
  simp only [mainLoop, hg, if_true, hb]

theorem mainLoop_done (cfg : Config) (n : Nat) (s : Sim)
    (hg : ¬ (s.completed_processes < cfg.target)) : mainLoop cfg n s = some s := by
  cases n with
  | zero => rfl
  | succ n => simp only [mainLoop, hg, if_false]

theorem processed_step (cfg : Config) (n : Nat) (s s1 : Sim) (e : EventQueue) (rest : Event)
    (hg : s.completed_processes < cfg.target) (hm : s.manager = e :: rest)
    (hb : loopBody cfg s = some s1) :
    processed cfg (n + 1) s = e :: processed cfg n s1 := by
  simp only [processed, hg, if_true, hm, hb]

theorem processed_done (cfg : Config) (n : Nat) (s : Sim)
    (hg : ¬ (s.completed_processes < cfg.target)) : processed cfg n s = [] := by
  cases n with
  | zero => rfl
  | succ n => simp only [processed, hg, if_false]

/-! ## The scenario of the specification -/

theorem scenario_step1 : loopBody scenarioCfg startState = some scenarioS1 := by
  simp [startState, scenarioS1, loopBody, HandleArrival, InsertEvent, scanLoop, scenarioCfg,
    GetNextEventType, GetNextEventTime, GetNextProcessID, RemoveEvent, wrapInt_two]

theorem scenario_step2 : loopBody scenarioCfg scenarioS1 = some scenarioS2 := by
  simp [scenarioS1, scenarioS2, loopBody, HandleArrival, InsertEvent, scanLoop, scenarioCfg,
    GetNextEventType, GetNextEventTime, GetNextProcessID, RemoveEvent]
  norm_num [scanLoop, wrapInt_three]

theorem scenario_step3 : loopBody scenarioCfg scenarioS2 = some scenarioS3 := by
  have hne : ¬ ("departure" = "arrival") := by decide
  simp [scenarioS2, scenarioS3, loopBody, HandleDeparture, InsertEvent, scanLoop, scenarioCfg,
    GetNextEventType, GetNextEventTime, GetNextProcessID, RemoveEvent, hne]
  norm_num [scanLoop]

theorem scenario_guard0 : startState.completed_processes < scenarioCfg.target := by
  simp [startState, scenarioCfg]

theorem scenario_guard1 : scenarioS1.completed_processes < scenarioCfg.target := by
  simp [scenarioS1, scenarioCfg]

theorem scenario_guard2 : scenarioS2.completed_processes < scenarioCfg.target := by
  simp [scenarioS2, scenarioCfg]

theorem scenario_guard3 : ¬ (scenarioS3.completed_processes < scenarioCfg.target) := by
  simp [scenarioS3, scenarioCfg]

theorem scenario_run_end (k : Nat) : run scenarioCfg (3 + k) = some scenarioS3 := by
  have e : 3 + k = k + 1 + 1 + 1 := by omega
  rw [e]
  simp only [run, initial_eq]
  rw [mainLoop_step _ _ _ _ scenario_guard0 scenario_step1,
    mainLoop_step _ _ _ _ scenario_guard1 scenario_step2,
    mainLoop_step _ _ _ _ scenario_guard2 scenario_step3,
    mainLoop_done _ _ _ scenario_guard3]

theorem scenario_processed_end (k : Nat) :
    runProcessed scenarioCfg (3 + k)
      = [⟨"arrival", 0, 1⟩, ⟨"arrival", 1, 2⟩, ⟨"departure", 2, 1⟩] := by
  have e : 3 + k = k + 1 + 1 + 1 := by omega
  rw [e]
  simp only [runProcessed, initial_eq]
  rw [processed_step _ _ _ _ ⟨"arrival", 0, 1⟩ [] scenario_guard0 rfl scenario_step1,
    processed_step _ _ _ _ ⟨"arrival", 1, 2⟩ [⟨"departure", 2, 1⟩] scenario_guard1 rfl
      scenario_step2,
    processed_step _ _ _ _ ⟨"departure", 2, 1⟩ [⟨"arrival", 2, 3⟩] scenario_guard2 rfl
      scenario_step3,
    processed_done _ _ _ scenario_guard3]

/-- C10 as stated fails. In the scenario no number of iterations ends the loop
with the figures of the claim: the loop cannot end before its third iteration,
and from then on the clock is at 2, not at 0.5. -/
theorem scenario_as_stated_fails :
    ¬ ∃ n s, run scenarioCfg n = some s
      ∧ ¬ (s.completed_processes < scenarioCfg.target)
      ∧ scenarioCfg.gen 0 (1 / scenarioCfg.avg_service_rate) = 1 / 2
      ∧ runProcessed scenarioCfg n = [⟨"arrival", 0, 1⟩, ⟨"departure", 1 / 2, 1⟩]
      ∧ s.clock = 1 / 2
      ∧ s.completed_processes = 1
      ∧ (finalMetrics scenarioCfg s).total_throughput = 2
      ∧ (finalMetrics scenarioCfg s).cpu_utilization = 1
      ∧ (finalMetrics scenarioCfg s).avg_number_of_processes_in_ready_queue = 0 := by
  rintro ⟨n, s, hrun, hg, _, _, hclk, _⟩
  match n, hrun with
  | 0, hrun =>
    simp only [run, initial_eq, mainLoop, Option.some.injEq] at hrun
    subst hrun
    exact hg scenario_guard0
  | 1, hrun =>
    simp only [run, initial_eq] at hrun
    rw [mainLoop_step _ _ _ _ scenario_guard0 scenario_step1] at hrun
    simp only [mainLoop, Option.some.injEq] at hrun
    subst hrun
    exact hg scenario_guard1
  | 2, hrun =>
    simp only [run, initial_eq] at hrun
    rw [mainLoop_step _ _ _ _ scenario_guard0 scenario_step1,
      mainLoop_step _ _ _ _ scenario_guard1 scenario_step2] at hrun
    simp only [mainLoop, Option.some.injEq] at hrun
    subst hrun
    exact hg scenario_guard2
  | k + 3, hrun =>
    have e : k + 3 = 3 + k := by omega
    rw [e, scenario_run_end k] at hrun
    have h1 := Option.some.inj hrun
    subst h1
    simp [scenarioS3] at hclk
    norm_num at hclk

/-- C10, amended. In the scenario the generator is called with
`1 / avg_service_rate` for the service time of process 1, which is 2; the loop
processes the arrival of process 1 at 0, the arrival of process 2 at 1 and the
departure of process 1 at 2, and ends there, however many more iterations are
allowed, with the clock at 2, one completed process, a throughput of 0.5 and
a mean ready-queue length of 0.5. -/
theorem scenario_outcome (k : Nat) :
    scenarioCfg.gen 0 (1 / scenarioCfg.avg_service_rate) = 2
      ∧ ∃ s, run scenarioCfg (3 + k) = some s
        ∧ ¬ (s.completed_processes < scenarioCfg.target)
        ∧ runProcessed scenarioCfg (3 + k)
            = [⟨"arrival", 0, 1⟩, ⟨"arrival", 1, 2⟩, ⟨"departure", 2, 1⟩]
        ∧ s.clock = 2
        ∧ s.completed_processes = 1
        ∧ (finalMetrics scenarioCfg s).total_throughput = 1 / 2
        ∧ (finalMetrics scenarioCfg s).avg_number_of_processes_in_ready_queue = 1 / 2
        ∧ (main scenarioCfg (3 + k)).map (fun m => m.total_throughput) = some (1 / 2) := by
  refine ⟨by simp [scenarioCfg], scenarioS3, scenario_run_end k, scenario_guard3,
    scenario_processed_end k, rfl, rfl, ?_, ?_, ?_⟩
  · simp [finalMetrics, scenarioS3]
  · simp [finalMetrics, scenarioS3]
  · have hmain : main scenarioCfg (3 + k) = some (finalMetrics scenarioCfg scenarioS3) := by
      simp only [main, scenario_run_end k, scenario_guard3, if_false]
    rw [hmain]
    simp [finalMetrics, scenarioS3]

/-! ## The utilization at the end of a run in which the server is never idle -/

theorem InsertEvent_singleton_ge (a : EventQueue) (ty : String) (t : ℚ) (id : Int)
    (h : ¬ t < a.event_time) :
    InsertEvent [a] ty t id = some [a, ⟨ty, t, id⟩] := by
  simp [InsertEvent, scanLoop, h]

theorem steady_service (N : Int) (c : Nat) :
    (steadyCfg N).gen c (1 / (steadyCfg N).avg_service_rate) = 2 := by
  simp [steadyCfg, sourceGen, GenerateTimes]

theorem steady_arrival (N : Int) (c : Nat) :
    (steadyCfg N).gen c (steadyCfg N).avg_arrival_rate = 1 := by
  simp [steadyCfg, sourceGen, GenerateTimes]

/-- In the steady run the departure at the head is processed with a process
waiting, which goes into service at once: its service time is added to
`total_service_time` at the time of the departure. -/
theorem steady_departure (N : Int) (k : Nat) (s : Sim) (h : SteadyState k s) :
    ∃ s1, loopBody (steadyCfg N) s = some s1
      ∧ s1.completed_processes = k + 1
      ∧ s1.total_service_time = 2 * k + 4
      ∧ s1.clock = 2 * k + 2
      ∧ s1.server_idle = false
      ∧ (∃ idd ida : Int,
          s1.manager = [⟨"arrival", 2 * k + 2, ida⟩, ⟨"departure", 2 * k + 4, idd⟩])
      ∧ (∀ p ∈ s1.ready_queue, p.service_time = 2) := by
  obtain ⟨hcomp, hserv, _, _, ⟨idd, ida, hm⟩, hw, hws⟩ := h
  cases hr : s.ready_queue with
  | nil => exact absurd hr hw
  | cons p ps =>
    have hp : p.service_time = 2 := hws p (by rw [hr]; exact List.mem_cons_self _ _)
    have hne : (⟨"departure", 2 * k + 2, idd⟩ : EventQueue).type ≠ "arrival" := by
      show ¬ ("departure" = "arrival")
      decide
    have hins : InsertEvent [⟨"arrival", 2 * k + 2, ida⟩] "departure"
        ((⟨"departure", 2 * k + 2, idd⟩ : EventQueue).event_time + p.service_time)
        p.process_id
        = some [⟨"arrival", 2 * k + 2, ida⟩, ⟨"departure", 2 * k + 4, p.process_id⟩] := by
      have e : (⟨"departure", 2 * k + 2, idd⟩ : EventQueue).event_time + p.service_time
          = 2 * k + 4 := by
        rw [hp]; show (2 * (k : ℚ) + 2) + 2 = 2 * k + 4; ring
      rw [e]
      apply InsertEvent_singleton_ge
      show ¬ ((2 * (k : ℚ) + 4) < 2 * k + 2)
      linarith
    refine ⟨_, loopBody_departure_next (steadyCfg N) s _ _ _ p ps hm hne hr hins,
      ?_, ?_, rfl, rfl, ⟨p.process_id, ida, rfl⟩, ?_⟩
    · show s.completed_processes + 1 = k + 1
      rw [hcomp]
    · show s.total_service_time + p.service_time = 2 * k + 4
      rw [hserv, hp]; ring
    · intro x hx
      exact hws x (by rw [hr]; exact List.mem_cons_of_mem _ hx)


/-- What an arrival processed while the server is busy changes. -/
theorem busy_arrival (cfg : Config) (s : Sim) (e : EventQueue) (rest m2 : Event)
    (hm : s.manager = e :: rest) (he : e.type = "arrival") (hi : s.server_idle = false)
    (h2 : InsertEvent rest "arrival"
      (e.event_time + cfg.gen (s.calls + 1) cfg.avg_arrival_rate)
      (wrapInt (s.number_of_processes + 1)) = some m2) :
    ∃ s1, loopBody cfg s = some s1
      ∧ s1.manager = m2
      ∧ s1.completed_processes = s.completed_processes
      ∧ s1.total_service_time = s.total_service_time
      ∧ s1.server_idle = false
      ∧ s1.ready_queue = s.ready_queue
          ++ [⟨cfg.gen s.calls (1 / cfg.avg_service_rate), e.process_id⟩]
      ∧ s1.clock = e.event_time
      ∧ s1.number_of_processes = wrapInt (s.number_of_processes + 1)
      ∧ s1.calls = s.calls + 2 :=
  ⟨_, loopBody_arrival_busy cfg s e rest m2 hm he hi h2, rfl, rfl, rfl, rfl, rfl, rfl, rfl,
    rfl⟩

/-- In the steady run, after a departure the next two arrivals are processed
before the next departure, and both processes have to wait. -/
theorem steady_arrivals (N : Int) (k : Nat) (s1 : Sim)
    (hcomp : s1.completed_processes = k + 1)
    (hserv : s1.total_service_time = 2 * k + 4)
    (hbusy : s1.server_idle = false)
    (hm : ∃ idd ida : Int,
      s1.manager = [⟨"arrival", 2 * k + 2, ida⟩, ⟨"departure", 2 * k + 4, idd⟩])
    (hws : ∀ p ∈ s1.ready_queue, p.service_time = 2) :
    ∃ s2 s3, loopBody (steadyCfg N) s1 = some s2
      ∧ s2.completed_processes = k + 1
      ∧ loopBody (steadyCfg N) s2 = some s3
      ∧ SteadyState (k + 1) s3 := by
  obtain ⟨idd, ida, hm⟩ := hm
  have hins2 : InsertEvent [⟨"departure", 2 * k + 4, idd⟩] "arrival"
      ((⟨"arrival", 2 * k + 2, ida⟩ : EventQueue).event_time
        + (steadyCfg N).gen (s1.calls + 1) (steadyCfg N).avg_arrival_rate)
      (wrapInt (s1.number_of_processes + 1))
      = some [⟨"arrival", 2 * k + 3, wrapInt (s1.number_of_processes + 1)⟩,
          ⟨"departure", 2 * k + 4, idd⟩] := by
    have e : (⟨"arrival", 2 * k + 2, ida⟩ : EventQueue).event_time
        + (steadyCfg N).gen (s1.calls + 1) (steadyCfg N).avg_arrival_rate
        = 2 * k + 3 := by
      rw [steady_arrival]; show (2 * (k : ℚ) + 2) + 1 = 2 * k + 3; ring
    rw [e]
    apply InsertEvent_lt_head
    show (2 * (k : ℚ) + 3) < 2 * k + 4
    linarith
  obtain ⟨s2, hb2, hm2, hcomp2, hserv2, hbusy2, hrq2, _, _, _⟩ :=
    busy_arrival (steadyCfg N) s1 _ _ _ hm rfl hbusy hins2
  have hins3 : InsertEvent [⟨"departure", 2 * k + 4, idd⟩] "arrival"
      ((⟨"arrival", 2 * k + 3, wrapInt (s1.number_of_processes + 1)⟩ : EventQueue).event_time
        + (steadyCfg N).gen (s2.calls + 1) (steadyCfg N).avg_arrival_rate)
      (wrapInt (s2.number_of_processes + 1))
      = some [⟨"departure", 2 * k + 4, idd⟩,
          ⟨"arrival", 2 * k + 4, wrapInt (s2.number_of_processes + 1)⟩] := by
    have e : (⟨"arrival", 2 * k + 3, wrapInt (s1.number_of_processes + 1)⟩ : EventQueue).event_time
        + (steadyCfg N).gen (s2.calls + 1) (steadyCfg N).avg_arrival_rate
        = 2 * k + 4 := by
      rw [steady_arrival]; show (2 * (k : ℚ) + 3) + 1 = 2 * k + 4; ring
    rw [e]
    apply InsertEvent_singleton_ge
    show ¬ ((2 * (k : ℚ) + 4) < 2 * k + 4)
    exact lt_irrefl _
  obtain ⟨s3, hb3, hm3, hcomp3, hserv3, hbusy3, hrq3, hclk3, _, _⟩ :=
    busy_arrival (steadyCfg N) s2 _ _ _ hm2 rfl hbusy2 hins3
  refine ⟨s2, s3, hb2, by rw [hcomp2, hcomp], hb3, ⟨?_, ?_, ?_, hbusy3, ?_, ?_, ?_⟩⟩
  · rw [hcomp3, hcomp2, hcomp]; push_cast; rfl
  · rw [hserv3, hserv2, hserv]; push_cast; ring
  · rw [hclk3]
    show (2 * (k : ℚ) + 3) = 2 * ((k + 1 : Nat) : ℚ) + 1
    push_cast; ring
  · refine ⟨idd, wrapInt (s2.number_of_processes + 1), ?_⟩
    rw [hm3]
    have e : 2 * ((k + 1 : Nat) : ℚ) + 2 = 2 * k + 4 := by push_cast; ring
    rw [e]
  · rw [hrq3]; simp
  · intro p hp
    rw [hrq3, hrq2] at hp
    rcases List.mem_append.mp hp with h1 | h1
    · rcases List.mem_append.mp h1 with h2 | h2
      · exact hws p h2
      · simp only [List.mem_singleton] at h2
        rw [h2]; exact steady_service N s1.calls
    · simp only [List.mem_singleton] at h1
      rw [h1]; exact steady_service N s2.calls


theorem steady_step1 (N : Int) : loopBody (steadyCfg N) startState = some scenarioS1 := by
  simp [startState, scenarioS1, loopBody, HandleArrival, InsertEvent, scanLoop, steadyCfg,
    sourceGen, GenerateTimes, GetNextEventType, GetNextEventTime, GetNextProcessID,
    RemoveEvent, wrapInt_two]

theorem steady_step2 (N : Int) : loopBody (steadyCfg N) scenarioS1 = some scenarioS2 := by
  simp [scenarioS1, scenarioS2, loopBody, HandleArrival, InsertEvent, scanLoop, steadyCfg,
    sourceGen, GenerateTimes, GetNextEventType, GetNextEventTime, GetNextProcessID,
    RemoveEvent]
  norm_num [scanLoop, wrapInt_three]

theorem steady_state0 : SteadyState 0 scenarioS2 := by
  refine ⟨rfl, ?_, ?_, rfl, ⟨1, 3, ?_⟩, ?_, ?_⟩
  · simp [scenarioS2]
  · simp [scenarioS2]
  · simp [scenarioS2]
  · simp [scenarioS2]
  · intro p hp
    simp only [scenarioS2, List.mem_singleton] at hp
    rw [hp]

/-- The steady run from a state with `k` completions to the end of the loop,
when `k + 1 + j` completions are asked for. -/
theorem steady_loop (j : Nat) :
    ∀ (k : Nat) (s : Sim), SteadyState k s →
      ∃ n s1, mainLoop (steadyCfg ((k + 1 + j : Nat) : Int)) n s = some s1
        ∧ s1.completed_processes = ((k + 1 + j : Nat) : Int)
        ∧ s1.clock = 2 * ((k + 1 + j : Nat) : ℚ)
        ∧ s1.total_service_time = 2 * ((k + 1 + j : Nat) : ℚ) + 2 := by
  induction j with
  | zero =>
    intro k s hs
    obtain ⟨s1, hb, hcomp, hserv, hclk, _, _, _⟩ :=
      steady_departure ((k + 1 + 0 : Nat) : Int) k s hs
    have hg : s.completed_processes < (steadyCfg ((k + 1 + 0 : Nat) : Int)).target := by
      rw [hs.completed]; simp [steadyCfg]
    refine ⟨1, s1, ?_, ?_, ?_, ?_⟩
    · rw [mainLoop_step _ _ _ _ hg hb]; rfl
    · rw [hcomp]; push_cast; ring
    · rw [hclk]; push_cast; ring
    · rw [hserv]; push_cast; ring
  | succ j ih =>
    intro k s hs
    have e : k + 1 + (j + 1) = (k + 1) + 1 + j := by omega
    rw [e]
    obtain ⟨s1, hb1, hcomp1, hserv1, _, hbusy1, hm1, hws1⟩ :=
      steady_departure ((k + 1 + 1 + j : Nat) : Int) k s hs
    obtain ⟨s2, s3, hb2, hcomp2, hb3, hs3⟩ :=
      steady_arrivals ((k + 1 + 1 + j : Nat) : Int) k s1 hcomp1 hserv1 hbusy1 hm1 hws1
    obtain ⟨n, s4, h4, r1, r2, r3⟩ := ih (k + 1) s3 hs3
    have hg0 : s.completed_processes < (steadyCfg ((k + 1 + 1 + j : Nat) : Int)).target := by
      rw [hs.completed]; simp only [steadyCfg]; push_cast; omega
    have hg1 : s1.completed_processes < (steadyCfg ((k + 1 + 1 + j : Nat) : Int)).target := by
      rw [hcomp1]; simp only [steadyCfg]; push_cast; omega
    have hg2 : s2.completed_processes < (steadyCfg ((k + 1 + 1 + j : Nat) : Int)).target := by
      rw [hcomp2]; simp only [steadyCfg]; push_cast; omega
    refine ⟨n + 1 + 1 + 1, s4, ?_, r1, r2, r3⟩
    rw [mainLoop_step _ _ _ _ hg0 hb1, mainLoop_step _ _ _ _ hg1 hb2,
      mainLoop_step _ _ _ _ hg2 hb3]
    exact h4

theorem steady_run (M : Nat) :
    ∃ n s, run (steadyCfg ((M + 1 : Nat) : Int)) n = some s
      ∧ s.completed_processes = ((M + 1 : Nat) : Int)
      ∧ s.clock = 2 * ((M + 1 : Nat) : ℚ)
      ∧ s.total_service_time = 2 * ((M + 1 : Nat) : ℚ) + 2 := by
  obtain ⟨n, s, h, r1, r2, r3⟩ := steady_loop M 0 scenarioS2 steady_state0
  have e : 0 + 1 + M = M + 1 := by omega
  rw [e] at h r1 r2 r3
  have hg0 : startState.completed_processes < (steadyCfg ((M + 1 : Nat) : Int)).target := by
    simp only [steadyCfg, startState]; push_cast; omega
  have hg1 : scenarioS1.completed_processes < (steadyCfg ((M + 1 : Nat) : Int)).target := by
    simp only [steadyCfg, scenarioS1]; push_cast; omega
  refine ⟨n + 1 + 1, s, ?_, r1, r2, r3⟩
  simp only [run, initial_eq]
  rw [mainLoop_step _ _ _ _ hg0 (steady_step1 _), mainLoop_step _ _ _ _ hg1 (steady_step2 _)]
  exact h

theorem steady_positive (N : Int) : PositiveIntervals (steadyCfg N) := by
  intro k
  rw [steady_service, steady_arrival]
  exact ⟨by norm_num, by norm_num⟩

/-- C9 fails on the code. With 1 and 2 read from the console, every draw `u`
with `log(u) = -1` and the 10000 completions of the source, all intervals
are greater than zero, the loop ends with the clock at 20000 and with
`total_service_time` at 20002, so the utilization printed is above 1: the
service time of the process that goes into service at the last departure is
counted in full. -/
theorem utilization_above_one :
    PositiveIntervals (steadyCfg 10000)
      ∧ ∃ n s, run (steadyCfg 10000) n = some s
        ∧ ¬ (s.completed_processes < (steadyCfg 10000).target)
        ∧ s.clock = 20000
        ∧ s.total_service_time = 20002
        ∧ (finalMetrics (steadyCfg 10000) s).cpu_utilization = 10001 / 10000
        ∧ 1 < (finalMetrics (steadyCfg 10000) s).cpu_utilization := by
  refine ⟨steady_positive _, ?_⟩
  obtain ⟨n, s, h, r1, r2, r3⟩ := steady_run 9999
  have e : ((9999 + 1 : Nat) : Int) = 10000 := by norm_num
  rw [e] at h r1
  have hu : (finalMetrics (steadyCfg 10000) s).cpu_utilization = 10001 / 10000 := by
    simp only [finalMetrics, r2, r3]; norm_num
  refine ⟨n, s, h, ?_, ?_, ?_, hu, ?_⟩
  · rw [r1]; simp [steadyCfg]
  · rw [r2]; norm_num
  · rw [r3]; norm_num
  · rw [hu]; norm_num

/-! ## The handlers -/

theorem HandleArrival_idle (cfg : Config) (s : Sim) (p_id : Int) (m1 m2 : Event)
    (hi : s.server_idle = true)
    (h1 : InsertEvent s.manager "departure"
      (s.clock + cfg.gen s.calls (1 / cfg.avg_service_rate)) p_id = some m1)
    (h2 : InsertEvent m1 "arrival"
      (s.clock + cfg.gen (s.calls + 1) cfg.avg_arrival_rate)
      (wrapInt (s.number_of_processes + 1)) = some m2) :
    HandleArrival cfg s p_id = some
      { number_of_processes := wrapInt (s.number_of_processes + 1)
        total_service_time :=
          s.total_service_time + cfg.gen s.calls (1 / cfg.avg_service_rate)
        total_ready_queue_time := s.total_ready_queue_time
        completed_processes := s.completed_processes
        clock := s.clock
        server_idle := false
        ready_queue := s.ready_queue
        manager := m2
        calls := s.calls + 2 } := by
  simp [HandleArrival, hi, h1, h2, -one_div]

theorem HandleArrival_busy (cfg : Config) (s : Sim) (p_id : Int) (m2 : Event)
    (hi : s.server_idle = false)
    (h2 : InsertEvent s.manager "arrival"
      (s.clock + cfg.gen (s.calls + 1) cfg.avg_arrival_rate)
      (wrapInt (s.number_of_processes + 1)) = some m2) :
    HandleArrival cfg s p_id = some
      { number_of_processes := wrapInt (s.number_of_processes + 1)
        total_service_time := s.total_service_time
        total_ready_queue_time := s.total_ready_queue_time
        completed_processes := s.completed_processes
        clock := s.clock
        server_idle := false
        ready_queue := s.ready_queue
          ++ [⟨cfg.gen s.calls (1 / cfg.avg_service_rate), p_id⟩]
        manager := m2
        calls := s.calls + 2 } := by
  simp [HandleArrival, hi, h2, -one_div]

theorem HandleDeparture_empty (s : Sim) (hr : s.ready_queue = []) :
    HandleDeparture s = some { s with server_idle := true } := by
  simp [HandleDeparture, hr]

theorem HandleDeparture_next (s : Sim) (p : Ready) (ps : List Ready) (m1 : Event)
    (hr : s.ready_queue = p :: ps)
    (h1 : InsertEvent s.manager "departure" (s.clock + p.service_time) p.process_id
      = some m1) :
    HandleDeparture s = some
      { s with
        server_idle := false
        ready_queue := ps
        total_service_time := s.total_service_time + p.service_time
        manager := m1 } := by
  simp [HandleDeparture, hr, h1]

theorem sublist_InsertEvent (q q1 : Event) (ty : String) (t : ℚ) (id : Int)
    (h : InsertEvent q ty t id = some q1) : q.Sublist q1 := by
  rw [InsertEvent_eq] at h
  have h1 := Option.some.inj h
  subst h1
  have h2 := scanLoop_append t q
  calc q = (scanLoop t q).1 ++ (scanLoop t q).2 := h2.symm
    _ |>.Sublist ((scanLoop t q).1 ++ ⟨ty, t, id⟩ :: (scanLoop t q).2) :=
      List.Sublist.append_left (List.sublist_cons_self _ _) _


theorem GenerateTimes_inv (logu a : ℚ) : GenerateTimes logu (1 / a) = a * (-logu) := by
  simp only [GenerateTimes, one_div, div_inv_eq_mul]
  ring

/-- C11 as stated fails. With a generator that returns its own argument and 2
read for `avg_service_rate`, the service time the handler gets is 1/2 in
both branches, so the call was made with `1 / avg_service_rate`, not with
`avg_service_rate`, for which this generator returns 2. -/
theorem service_lambda_is_not_the_rate :
    ∃ s1 s2, HandleArrival probeCfg startState 1 = some s1
      ∧ s1.total_service_time = 1 / 2
      ∧ probeCfg.gen startState.calls probeCfg.avg_service_rate = 2
      ∧ s1.total_service_time ≠ startState.total_service_time
          + probeCfg.gen startState.calls probeCfg.avg_service_rate
      ∧ HandleArrival probeCfg scenarioS1 2 = some s2
      ∧ s2.ready_queue = [⟨1 / 2, 2⟩]
      ∧ s2.ready_queue ≠ scenarioS1.ready_queue
          ++ [⟨probeCfg.gen scenarioS1.calls probeCfg.avg_service_rate, 2⟩] := by
  obtain ⟨m1, h1⟩ := InsertEvent_total startState.manager "departure"
    (startState.clock + probeCfg.gen startState.calls (1 / probeCfg.avg_service_rate)) 1
  obtain ⟨m2, h2⟩ := InsertEvent_total m1 "arrival"
    (startState.clock + probeCfg.gen (startState.calls + 1) probeCfg.avg_arrival_rate)
    (wrapInt (startState.number_of_processes + 1))
  obtain ⟨m3, h3⟩ := InsertEvent_total scenarioS1.manager "arrival"
    (scenarioS1.clock + probeCfg.gen (scenarioS1.calls + 1) probeCfg.avg_arrival_rate)
    (wrapInt (scenarioS1.number_of_processes + 1))
  refine ⟨_, _, HandleArrival_idle probeCfg startState 1 m1 m2 rfl h1 h2, ?_, ?_, ?_,
    HandleArrival_busy probeCfg scenarioS1 2 m3 rfl h3, ?_, ?_⟩
  · simp [startState, probeCfg]
  · simp [probeCfg]
  · simp [startState, probeCfg]; norm_num
  · simp [scenarioS1, probeCfg]
  · simp [scenarioS1, probeCfg]; norm_num

/-- C11, amended. In both branches of the arrival handler the service time is
what the generator returns for the argument `1 / avg_service_rate`, and the time
to the next arrival is what it returns, at the next call, for the argument
`avg_arrival_rate`; the handler makes these two calls and no other, so that its
result is the same for any generator that agrees on them. With this argument
`GenerateTimes` returns `avg_service_rate` times `-log(u)`. -/
theorem arrival_generator_arguments (cfg : Config) (s : Sim) (p_id : Int) :
    (∃ s1, HandleArrival cfg s p_id = some s1
      ∧ (s.server_idle = true →
          s1.total_service_time
            = s.total_service_time + cfg.gen s.calls (1 / cfg.avg_service_rate)
          ∧ ⟨"departure", s.clock + cfg.gen s.calls (1 / cfg.avg_service_rate), p_id⟩
              ∈ s1.manager)
      ∧ (s.server_idle = false →
          s1.ready_queue = s.ready_queue
            ++ [⟨cfg.gen s.calls (1 / cfg.avg_service_rate), p_id⟩])
      ∧ ⟨"arrival", s.clock + cfg.gen (s.calls + 1) cfg.avg_arrival_rate,
          wrapInt (s.number_of_processes + 1)⟩ ∈ s1.manager
      ∧ s1.calls = s.calls + 2)
    ∧ (∀ g : Nat → ℚ → ℚ,
        g s.calls (1 / cfg.avg_service_rate) = cfg.gen s.calls (1 / cfg.avg_service_rate) →
        g (s.calls + 1) cfg.avg_arrival_rate = cfg.gen (s.calls + 1) cfg.avg_arrival_rate →
        HandleArrival { cfg with gen := g } s p_id = HandleArrival cfg s p_id)
    ∧ ∀ logu : ℚ,
        GenerateTimes logu (1 / cfg.avg_service_rate) = cfg.avg_service_rate * (-logu) := by
  refine ⟨?_, ?_, fun logu => GenerateTimes_inv logu _⟩
  · cases hi : s.server_idle with
    | true =>
      obtain ⟨m1, h1⟩ := InsertEvent_total s.manager "departure"
        (s.clock + cfg.gen s.calls (1 / cfg.avg_service_rate)) p_id
      obtain ⟨m2, h2⟩ := InsertEvent_total m1 "arrival"
        (s.clock + cfg.gen (s.calls + 1) cfg.avg_arrival_rate)
        (wrapInt (s.number_of_processes + 1))
      refine ⟨_, HandleArrival_idle cfg s p_id m1 m2 hi h1 h2, ?_, ?_, ?_, rfl⟩
      · intro _
        refine ⟨rfl, ?_⟩
        exact (mem_InsertEvent _ _ _ _ _ h2 _).mpr
          (Or.inr ((mem_InsertEvent _ _ _ _ _ h1 _).mpr (Or.inl rfl)))
      · intro hcontra; simp at hcontra
      · exact (mem_InsertEvent _ _ _ _ _ h2 _).mpr (Or.inl rfl)
    | false =>
      obtain ⟨m2, h2⟩ := InsertEvent_total s.manager "arrival"
        (s.clock + cfg.gen (s.calls + 1) cfg.avg_arrival_rate)
        (wrapInt (s.number_of_processes + 1))
      refine ⟨_, HandleArrival_busy cfg s p_id m2 hi h2, ?_, ?_, ?_, rfl⟩
      · intro hcontra; simp at hcontra
      · intro _; rfl
      · exact (mem_InsertEvent _ _ _ _ _ h2 _).mpr (Or.inl rfl)
  · intro g hg1 hg2
    cases hi : s.server_idle with
    | true =>
      obtain ⟨m1, h1⟩ := InsertEvent_total s.manager "departure"
        (s.clock + cfg.gen s.calls (1 / cfg.avg_service_rate)) p_id
      obtain ⟨m2, h2⟩ := InsertEvent_total m1 "arrival"
        (s.clock + cfg.gen (s.calls + 1) cfg.avg_arrival_rate)
        (wrapInt (s.number_of_processes + 1))
      rw [HandleArrival_idle cfg s p_id m1 m2 hi h1 h2,
        HandleArrival_idle { cfg with gen := g } s p_id m1 m2 hi
          (by show InsertEvent s.manager "departure"
                (s.clock + g s.calls (1 / cfg.avg_service_rate)) p_id = some m1
              rw [hg1]; exact h1)
          (by show InsertEvent m1 "arrival"
                (s.clock + g (s.calls + 1) cfg.avg_arrival_rate)
                (wrapInt (s.number_of_processes + 1)) = some m2
              rw [hg2]; exact h2)]
      show some ({ number_of_processes := _, total_service_time :=
        s.total_service_time + g s.calls (1 / cfg.avg_service_rate), .. } : Sim) = _
      rw [hg1]
    | false =>
      obtain ⟨m2, h2⟩ := InsertEvent_total s.manager "arrival"
        (s.clock + cfg.gen (s.calls + 1) cfg.avg_arrival_rate)
        (wrapInt (s.number_of_processes + 1))
      rw [HandleArrival_busy cfg s p_id m2 hi h2,
        HandleArrival_busy { cfg with gen := g } s p_id m2 hi
          (by show InsertEvent s.manager "arrival"
                (s.clock + g (s.calls + 1) cfg.avg_arrival_rate)
                (wrapInt (s.number_of_processes + 1)) = some m2
              rw [hg2]; exact h2)]
      show some ({ number_of_processes := _, ready_queue := s.ready_queue
        ++ [⟨g s.calls (1 / cfg.avg_service_rate), p_id⟩], .. } : Sim) = _
      rw [hg1]

/-! ## The process ids -/

theorem departure_ne_arrival : ¬ ("departure" = "arrival") := by decide

theorem arrival_ne_departure : ¬ ("arrival" = "departure") := by decide

theorem no_arrival_of_count (l : List EventQueue) (h : l.countP isArrival = 0) :
    ∀ x ∈ l, ¬ x.type = "arrival" := by
  intro x hx hxa
  have := (List.countP_eq_zero.mp h) x hx
  simp [isArrival, hxa] at this

theorem no_departure_of_count (l : List EventQueue) (h : l.countP isDeparture = 0) :
    ∀ x ∈ l, ¬ x.type = "departure" := by
  intro x hx hxa
  have := (List.countP_eq_zero.mp h) x hx
  simp [isDeparture, hxa] at this

/-- What the counting invariant says of the events behind the head. -/
theorem CountInv_rest (s : Sim) (e : EventQueue) (rest : Event) (hc : CountInv s)
    (hm : s.manager = e :: rest) :
    (e.type = "arrival" → rest.countP isArrival = 0
      ∧ rest.countP isDeparture = if s.server_idle then 0 else 1)
    ∧ (¬ e.type = "arrival" → e.type = "departure" ∧ s.server_idle = false
      ∧ rest.countP isArrival = 1 ∧ rest.countP isDeparture = 0) := by
  obtain ⟨hty, harr, hdep, _⟩ := hc
  rw [hm] at hty harr hdep
  constructor
  · intro he
    have hea : isArrival e = true := by simp [isArrival, he]
    have hed : isDeparture e = false := by
      have : ¬ ("arrival" = "departure") := by decide
      simp [isDeparture, he, this]
    rw [List.countP_cons, hea] at harr
    rw [List.countP_cons, hed] at hdep
    simp only [if_true, add_left_eq_self] at harr
    simp only [Bool.false_eq_true, if_false, add_zero] at hdep
    exact ⟨harr, hdep⟩
  · intro he
    have hed0 : e.type = "departure" := by
      rcases hty e (List.mem_cons_self _ _) with h0 | h0
      · exact absurd h0 he
      · exact h0
    have hea : isArrival e = false := by simp [isArrival, he]
    have hed : isDeparture e = true := by simp [isDeparture, hed0]
    rw [List.countP_cons, hea] at harr
    rw [List.countP_cons, hed] at hdep
    simp only [Bool.false_eq_true, if_false, add_zero] at harr
    simp only [if_true] at hdep
    have hi : s.server_idle = false := by
      cases hi : s.server_idle with
      | true => rw [hi] at hdep; simp at hdep
      | false => rfl
    rw [hi] at hdep
    simp only [Bool.false_eq_true, if_false, add_left_eq_self] at hdep
    exact ⟨hed0, hi, harr, hdep⟩

theorem map_range_shift (f : Int → Int) (a : Int) (n : Nat) :
    (List.range (n + 1)).map (fun i : Nat => f (a + (i : Int)))
      = f a :: (List.range n).map (fun i : Nat => f (a + 1 + (i : Int))) := by
  rw [List.range_succ_eq_map, List.map_cons, List.map_map]
  congr 1
  · simp
  · apply List.map_congr_left
    intro i _
    simp only [Function.comp, Nat.succ_eq_add_one]
    congr 1
    push_cast
    ring

/-- One iteration of the loop body keeps the invariant of the process ids. -/
theorem loopBody_IdInv (cfg : Config) (s s1 : Sim) (hc : CountInv s) (hid : IdInv s)
    (h : loopBody cfg s = some s1) : IdInv s1 := by
  obtain ⟨hcnt, harrid, hdepid, hrq⟩ := hid
  obtain ⟨e, rest, hm, hcase⟩ := loopBody_cases cfg s s1 h
  obtain ⟨hra, hrd⟩ := CountInv_rest s e rest hc hm
  have hmem : ∀ x ∈ rest, x ∈ s.manager := by
    intro x hx; rw [hm]; exact List.mem_cons_of_mem _ hx
  have hehead : e ∈ s.manager := by rw [hm]; exact List.mem_cons_self _ _
  rcases hcase with ⟨he, hi, m1, m2, h1, h2, rfl⟩ | ⟨he, hi, m2, h2, rfl⟩ | ⟨he, hr, rfl⟩
    | ⟨he, p, ps, m1, hr, h1, rfl⟩
  · obtain ⟨ha0, hd0⟩ := hra he
    rw [hi] at hd0
    simp only [if_true] at hd0
    have hrq0 := hc.idle_ready hi
    have harr0 : arrived s = s.completed_processes := by
      simp [arrived, hi, hrq0]
    have heid := harrid e hehead he
    refine ⟨?_, ?_, ?_, ?_⟩
    · show wrapInt (s.number_of_processes + 1) = wrapInt (_ + 1)
      rw [hcnt, wrapInt_succ, harr0]
      congr 1
      simp [arrived, hrq0]
    · intro x hx hxa
      rcases (mem_InsertEvent _ _ _ _ _ h2 x).mp hx with hx | hx
      · rw [hx]
      · rcases (mem_InsertEvent _ _ _ _ _ h1 x).mp hx with hx | hx
        · rw [hx] at hxa; exact absurd hxa departure_ne_arrival
        · exact absurd hxa (no_arrival_of_count rest ha0 x hx)
    · intro x hx hxd
      rcases (mem_InsertEvent _ _ _ _ _ h2 x).mp hx with hx | hx
      · rw [hx] at hxd; exact absurd hxd arrival_ne_departure
      · rcases (mem_InsertEvent _ _ _ _ _ h1 x).mp hx with hx | hx
        · rw [hx]
          show e.process_id = wrapInt (s.completed_processes + 1)
          rw [heid, hcnt, harr0]
        · exact absurd hxd (no_departure_of_count rest hd0 x hx)
    · show s.ready_queue.map (fun p : Ready => p.process_id) = _
      rw [hrq0]; rfl
  · obtain ⟨ha0, _⟩ := hra he
    have harr0 : arrived s = s.completed_processes + s.ready_queue.length + 1 := by
      simp [arrived, hi]
    have heid := harrid e hehead he
    refine ⟨?_, ?_, ?_, ?_⟩
    · show wrapInt (s.number_of_processes + 1) = wrapInt (_ + 1)
      rw [hcnt, wrapInt_succ, harr0]
      congr 1
      simp only [arrived, Bool.false_eq_true, if_false, List.length_append,
        List.length_singleton]
      push_cast
      ring
    · intro x hx hxa
      rcases (mem_InsertEvent _ _ _ _ _ h2 x).mp hx with hx | hx
      · rw [hx]
      · exact absurd hxa (no_arrival_of_count rest ha0 x hx)
    · intro x hx hxd
      rcases (mem_InsertEvent _ _ _ _ _ h2 x).mp hx with hx | hx
      · rw [hx] at hxd; exact absurd hxd arrival_ne_departure
      · exact hdepid x (hmem x hx) hxd
    · show (s.ready_queue ++ [_]).map (fun p : Ready => p.process_id)
        = (List.range (s.ready_queue ++ [_]).length).map _
      rw [List.map_append, hrq, List.length_append, List.length_singleton,
        List.range_succ, List.map_append]
      congr 1
      show [e.process_id]
        = [wrapInt (s.completed_processes + 2 + (s.ready_queue.length : Int))]
      rw [heid, hcnt, harr0]
      congr 2
      ring
  · obtain ⟨hed, hi, _, hd0⟩ := hrd he
    refine ⟨?_, ?_, ?_, ?_⟩
    · show s.number_of_processes = wrapInt (_ + 1)
      rw [hcnt]
      congr 1
      simp [arrived, hi, hr]
    · intro x hx hxa
      exact harrid x (hmem x hx) hxa
    · intro x hx hxd
      exact absurd hxd (no_departure_of_count rest hd0 x hx)
    · rfl
  · obtain ⟨hed, hi, _, hd0⟩ := hrd he
    have hrq' := hrq
    rw [hr] at hrq'
    rw [List.map_cons, List.length_cons,
      map_range_shift wrapInt (s.completed_processes + 2)] at hrq'
    obtain ⟨hp, hps⟩ := List.cons.inj hrq'
    refine ⟨?_, ?_, ?_, ?_⟩
    · show s.number_of_processes = wrapInt (_ + 1)
      rw [hcnt]
      congr 1
      simp only [arrived, hi, hr, Bool.false_eq_true, if_false, List.length_cons]
      push_cast
      ring
    · intro x hx hxa
      rcases (mem_InsertEvent _ _ _ _ _ h1 x).mp hx with hx | hx
      · rw [hx] at hxa; exact absurd hxa departure_ne_arrival
      · exact harrid x (hmem x hx) hxa
    · intro x hx hxd
      rcases (mem_InsertEvent _ _ _ _ _ h1 x).mp hx with hx | hx
      · rw [hx]
        show p.process_id = wrapInt (s.completed_processes + 1 + 1)
        rw [hp]
        congr 1
        ring
      · exact absurd hxd (no_departure_of_count rest hd0 x hx)
    · show ps.map (fun p : Ready => p.process_id)
        = (List.range ps.length).map
            (fun i : Nat => wrapInt (s.completed_processes + 1 + 2 + (i : Int)))
      rw [hps]
      apply List.map_congr_left
      intro i _
      congr 1
      ring

theorem initial_IdInv : IdInv startState := by
  refine ⟨?_, ?_, ?_, ?_⟩
  · simp [startState, arrived, wrapInt]
  · intro e he _
    simp only [startState, List.mem_singleton] at he
    rw [he]; rfl
  · intro e he hed
    simp only [startState, List.mem_singleton] at he
    rw [he] at hed
    exact absurd hed arrival_ne_departure
  · rfl

/-- The ids of the events the loop processes from a state with the
invariants: the arrivals carry the values of the 32-bit counter one after the
other, the departures the values that follow `completed_processes`. -/
theorem mainLoop_ids (cfg : Config) (n : Nat) :
    ∀ s : Sim, CountInv s → IdInv s →
      ∃ s1, mainLoop cfg n s = some s1 ∧ CountInv s1 ∧ IdInv s1
        ∧ ((processed cfg n s).filter isArrival).map (fun e : EventQueue => e.process_id)
            = (List.range ((processed cfg n s).countP isArrival)).map
                (fun i : Nat => wrapInt (arrived s + 1 + (i : Int)))
        ∧ ((processed cfg n s).filter isDeparture).map (fun e : EventQueue => e.process_id)
            = (List.range ((processed cfg n s).countP isDeparture)).map
                (fun i : Nat => wrapInt (s.completed_processes + 1 + (i : Int)))
        ∧ ∀ e ∈ processed cfg n s, e.type = "arrival" ∨ e.type = "departure" := by
  induction n with
  | zero =>
    intro s hc hid
    exact ⟨s, rfl, hc, hid, by simp [processed], by simp [processed], by simp [processed]⟩
  | succ n ih =>
    intro s hc hid
    by_cases hg : s.completed_processes < cfg.target
    · obtain ⟨e, rest, s1, hm, hb, hc1, _, hnum, hcomp⟩ := loopBody_CountInv cfg s hc
      have hid1 := loopBody_IdInv cfg s s1 hc hid hb
      obtain ⟨s2, h2, hc2, hid2, ha2, hd2, ht2⟩ := ih s1 hc1 hid1
      have hehead : e ∈ s.manager := by rw [hm]; exact List.mem_cons_self _ _
      have hpr : processed cfg (n + 1) s = e :: processed cfg n s1 :=
        processed_step cfg n s s1 e rest hg hm hb
      refine ⟨s2, ?_, hc2, hid2, ?_, ?_, ?_⟩
      · rw [mainLoop_step cfg n s s1 hg hb]; exact h2
      · rw [hpr]
        by_cases he : e.type = "arrival"
        · have hea : isArrival e = true := by simp [isArrival, he]
          have hs1 : arrived s1 = arrived s + 1 := by rw [hnum, hea]; simp
          rw [List.filter_cons_of_pos hea, List.countP_cons_of_pos _ _ hea, List.map_cons,
            map_range_shift wrapInt (arrived s + 1), ha2, hid.arrival_id e hehead he,
            hid.counter, hs1]
        · have hea : ¬ isArrival e = true := by simp [isArrival, he]
          have hs1 : arrived s1 = arrived s := by rw [hnum]; simp [hea]
          rw [List.filter_cons_of_neg hea, List.countP_cons_of_neg _ _ hea, ha2, hs1]
      · rw [hpr]
        by_cases he : e.type = "departure"
        · have hed : isDeparture e = true := by simp [isDeparture, he]
          have hea : isArrival e = false := by
            simp [isArrival, he, departure_ne_arrival]
          have hs1 : s1.completed_processes = s.completed_processes + 1 := by
            rw [hcomp, hea]; simp
          rw [List.filter_cons_of_pos hed, List.countP_cons_of_pos _ _ hed, List.map_cons,
            map_range_shift wrapInt (s.completed_processes + 1), hd2,
            hid.departure_id e hehead he, hs1]
        · have hed : ¬ isDeparture e = true := by simp [isDeparture, he]
          have hea : isArrival e = true := by
            rcases hc.types e hehead with h0 | h0
            · simp [isArrival, h0]
            · exact absurd h0 he
          have hs1 : s1.completed_processes = s.completed_processes := by
            rw [hcomp, hea]; simp
          rw [List.filter_cons_of_neg hed, List.countP_cons_of_neg _ _ hed, hd2, hs1]
      · rw [hpr]
        intro x hx
        rcases List.mem_cons.mp hx with hx | hx
        · rw [hx]; exact hc.types e hehead
        · exact ht2 x hx
    · exact ⟨s, mainLoop_done cfg _ s hg, hc, hid, by simp [processed_done cfg _ s hg],
        by simp [processed_done cfg _ s hg], by simp [processed_done cfg _ s hg]⟩

theorem run_ids (cfg : Config) (n : Nat) :
    ∃ s, run cfg n = some s ∧ CountInv s ∧ IdInv s
      ∧ ((runProcessed cfg n).filter isArrival).map (fun e : EventQueue => e.process_id)
          = (List.range ((runProcessed cfg n).countP isArrival)).map
              (fun i : Nat => wrapInt ((i : Int) + 1))
      ∧ ((runProcessed cfg n).filter isDeparture).map (fun e : EventQueue => e.process_id)
          = (List.range ((runProcessed cfg n).countP isDeparture)).map
              (fun i : Nat => wrapInt ((i : Int) + 1))
      ∧ ∀ e ∈ runProcessed cfg n, e.type = "arrival" ∨ e.type = "departure" := by
  obtain ⟨s1, h1, hc1, hid1, ha, hd, ht⟩ :=
    mainLoop_ids cfg n startState (initial_CountInv _ initial_eq) initial_IdInv
  refine ⟨s1, ?_, hc1, hid1, ?_, ?_, ?_⟩
  · simp only [run, initial_eq]; exact h1
  · simp only [runProcessed, initial_eq]
    rw [ha]
    apply List.map_congr_left
    intro i _
    congr 1
    simp only [arrived, startState]
    simp
    ring
  · simp only [runProcessed, initial_eq]
    rw [hd]
    apply List.map_congr_left
    intro i _
    congr 1
    simp only [startState]
    ring
  · simp only [runProcessed, initial_eq]; exact ht

/-- The state a run has reached: its counter, its books and the arrivals
processed so far agree. -/
theorem run_counter (cfg : Config) (n : Nat) :
    ∃ s, run cfg n = some s ∧ CountInv s ∧ IdInv s
      ∧ ((runProcessed cfg n).countP isArrival : Int) = arrived s
      ∧ ((runProcessed cfg n).countP (fun e => !isArrival e) : Int) = s.completed_processes
      ∧ s.number_of_processes
          = wrapInt (((runProcessed cfg n).countP isArrival : Int) + 1) := by
  obtain ⟨s, h, hc, hid, _⟩ := run_ids cfg n
  obtain ⟨s', h', _, hcount, hdone⟩ := run_CountInv cfg n
  rw [h] at h'
  have hs := Option.some.inj h'
  subst hs
  exact ⟨s, h, hc, hid, hcount, hdone, by rw [hcount]; exact hid.counter⟩

/-! ## A run in which the counter overflows -/

theorem pile_service (c : Nat) :
    pileCfg.gen c (1 / pileCfg.avg_service_rate) = 8589934592 := by
  simp [pileCfg, sourceGen, GenerateTimes]

theorem pile_arrival (c : Nat) : pileCfg.gen c pileCfg.avg_arrival_rate = 1 := by
  simp [pileCfg, sourceGen, GenerateTimes]

theorem pile_positive : PositiveIntervals pileCfg := by
  intro k
  rw [pile_service, pile_arrival]
  exact ⟨by norm_num, by norm_num⟩

/-- In the piling run an arrival processed before time 8589934592 leaves the
departure of process 1 behind the next arrival. -/
theorem pile_step (n : Nat) (s : Sim) (h : PileState n s) (hn : n + 1 < 8589934592) :
    ∃ s1, loopBody pileCfg s = some s1 ∧ PileState (n + 1) s1 := by
  obtain ⟨hcomp, hbusy, hwait, hcnt, hm⟩ := h
  have hins : InsertEvent [⟨"departure", 8589934592, 1⟩] "arrival"
      ((⟨"arrival", n, wrapInt ((n : Int) + 1)⟩ : EventQueue).event_time
        + pileCfg.gen (s.calls + 1) pileCfg.avg_arrival_rate)
      (wrapInt (s.number_of_processes + 1))
      = some [⟨"arrival", ((n + 1 : Nat) : ℚ), wrapInt (((n + 1 : Nat) : Int) + 1)⟩,
          ⟨"departure", 8589934592, 1⟩] := by
    have e1 : (⟨"arrival", n, wrapInt ((n : Int) + 1)⟩ : EventQueue).event_time
        + pileCfg.gen (s.calls + 1) pileCfg.avg_arrival_rate = ((n + 1 : Nat) : ℚ) := by
      rw [pile_arrival]; push_cast; rfl
    have e2 : wrapInt (s.number_of_processes + 1) = wrapInt (((n + 1 : Nat) : Int) + 1) := by
      rw [hcnt, wrapInt_succ]; push_cast; rfl
    rw [e1, e2]
    apply InsertEvent_lt_head
    show ((n + 1 : Nat) : ℚ) < 8589934592
    exact_mod_cast hn
  obtain ⟨s1, hb, hm1, hcomp1, _, hbusy1, hrq1, _, hnum1, _⟩ :=
    busy_arrival pileCfg s _ _ _ hm rfl hbusy hins
  refine ⟨s1, hb, ⟨by rw [hcomp1, hcomp], hbusy1, ?_, ?_, hm1⟩⟩
  · rw [hrq1, List.length_append, List.length_singleton]; omega
  · rw [hnum1, hcnt, wrapInt_succ]; push_cast; rfl

theorem pile_loop (k : Nat) :
    ∀ (n : Nat) (s : Sim), PileState n s → n + k < 8589934592 →
      ∃ s1, mainLoop pileCfg k s = some s1 ∧ PileState (n + k) s1 := by
  induction k with
  | zero => intro n s h _; exact ⟨s, rfl, h⟩
  | succ k ih =>
    intro n s h hn
    obtain ⟨s1, hb, h1⟩ := pile_step n s h (by omega)
    obtain ⟨s2, h2, hp2⟩ := ih (n + 1) s1 h1 (by omega)
    have hg : s.completed_processes < pileCfg.target := by
      rw [h.completed]; simp [pileCfg]
    refine ⟨s2, ?_, ?_⟩
    · rw [mainLoop_step pileCfg k s s1 hg hb]; exact h2
    · have e : n + (k + 1) = n + 1 + k := by omega
      rw [e]; exact hp2

theorem pile_first : ∃ s1, loopBody pileCfg startState = some s1 ∧ PileState 1 s1 := by
  have h1 : InsertEvent [] "departure"
      ((⟨"arrival", 0, 1⟩ : EventQueue).event_time
        + pileCfg.gen startState.calls (1 / pileCfg.avg_service_rate))
      (⟨"arrival", 0, 1⟩ : EventQueue).process_id
      = some [⟨"departure", 8589934592, 1⟩] := by
    rw [pile_service]
    simp [InsertEvent]
  have h2 : InsertEvent [⟨"departure", 8589934592, 1⟩] "arrival"
      ((⟨"arrival", 0, 1⟩ : EventQueue).event_time
        + pileCfg.gen (startState.calls + 1) pileCfg.avg_arrival_rate)
      (wrapInt (startState.number_of_processes + 1))
      = some [⟨"arrival", ((1 : Nat) : ℚ), wrapInt (((1 : Nat) : Int) + 1)⟩,
          ⟨"departure", 8589934592, 1⟩] := by
    have e1 : (⟨"arrival", 0, 1⟩ : EventQueue).event_time
        + pileCfg.gen (startState.calls + 1) pileCfg.avg_arrival_rate = ((1 : Nat) : ℚ) := by
      rw [pile_arrival]; simp
    have e2 : wrapInt (startState.number_of_processes + 1)
        = wrapInt (((1 : Nat) : Int) + 1) := by
      simp [startState]
    rw [e1, e2]
    apply InsertEvent_lt_head
    show ((1 : Nat) : ℚ) < 8589934592
    norm_num
  refine ⟨_, loopBody_arrival_idle pileCfg startState ⟨"arrival", 0, 1⟩ [] _ _ rfl rfl rfl
    h1 h2, ⟨rfl, rfl, rfl, ?_, rfl⟩⟩
  show wrapInt (startState.number_of_processes + 1) = wrapInt (((1 : Nat) : Int) + 1)
  simp [startState]

/-- The piling run after `k + 1` iterations, as long as the departure of
process 1 is not due. -/
theorem pile_run (k : Nat) (hk : k + 1 < 8589934592) :
    ∃ s, run pileCfg (k + 1) = some s ∧ PileState (k + 1) s := by
  obtain ⟨s1, hb, h1⟩ := pile_first
  obtain ⟨s2, h2, hp2⟩ := pile_loop k 1 s1 h1 (by omega)
  have hg : startState.completed_processes < pileCfg.target := by
    simp [startState, pileCfg]
  refine ⟨s2, ?_, ?_⟩
  · simp only [run, initial_eq]
    rw [mainLoop_step pileCfg k startState s1 hg hb]; exact h2
  · have e : k + 1 = 1 + k := by omega
    rw [e]; exact hp2

/-! ## The 32-bit counter: claims -/

theorem pile_books (n : Nat) (s : Sim) (h : PileState n s) : arrived s = (n : Int) := by
  have hw := h.waiting
  simp only [arrived, h.completed, h.busy, Bool.false_eq_true, if_false]
  omega

/-- C4 as stated fails. With 1 and 8589934592 read from the console and
every draw `u` with `log(u) = -1`, the first 2147483648 iterations of the main
loop process one arrival each, and `number_of_processes`, a 32-bit `int`, has
then wrapped around to -2147483647: `number_of_processes - 1` is -2147483648,
not the number of arrivals processed. -/
theorem arrivals_outrun_the_counter :
    ∃ s, run pileCfg 2147483648 = some s
      ∧ ((runProcessed pileCfg 2147483648).countP isArrival : Int) = 2147483648
      ∧ s.number_of_processes = -2147483647
      ∧ s.number_of_processes - 1 = -2147483648
      ∧ ((runProcessed pileCfg 2147483648).countP isArrival : Int)
          ≠ s.number_of_processes - 1 := by
  obtain ⟨s, h, hp⟩ := pile_run 2147483647 (by norm_num)
  have e : 2147483647 + 1 = 2147483648 := rfl
  rw [e] at h hp
  obtain ⟨s', h', _, _, hcount, _, _⟩ := run_counter pileCfg 2147483648
  rw [h] at h'
  have hs := Option.some.inj h'
  subst hs
  have hA : ((runProcessed pileCfg 2147483648).countP isArrival : Int) = 2147483648 := by
    rw [hcount, pile_books _ _ hp]; rfl
  have hN : s.number_of_processes = -2147483647 := by
    rw [hp.counter]
    unfold wrapInt
    omega
  refine ⟨s, h, hA, hN, ?_, ?_⟩
  · rw [hN]; decide
  · rw [hA, hN]
    decide

/-- C4, amended. In the initial state and after every iteration of the main
loop, whatever the intervals, the number of arrivals processed so far is the
sum of `completed_processes`, the length of the ready queue, and one if the
server is busy; `number_of_processes` is the 32-bit value of that number plus
one, so that the number is `number_of_processes - 1` as long as it is below
2147483647. -/
theorem conservation_and_counter (cfg : Config) (n : Nat) :
    ∃ s, run cfg n = some s
      ∧ ((runProcessed cfg n).countP isArrival : Int)
          = s.completed_processes + s.ready_queue.length
            + (if s.server_idle then 0 else 1)
      ∧ s.number_of_processes
          = wrapInt (((runProcessed cfg n).countP isArrival : Int) + 1)
      ∧ (((runProcessed cfg n).countP isArrival : Int) < 2147483647 →
          ((runProcessed cfg n).countP isArrival : Int) = s.number_of_processes - 1) := by
  obtain ⟨s, h, _, _, hcount, _, hnum⟩ := run_counter cfg n
  refine ⟨s, h, hcount, hnum, ?_⟩
  intro hlt
  rw [hnum, wrapInt_of_range _ (by omega) (by omega)]
  ring

theorem take_ids (c : Nat) :
    ((List.range c).map (fun i : Nat => wrapInt ((i : Int) + 1))).take 2147483647
      = (List.range (min 2147483647 c)).map (fun i : Nat => (i : Int) + 1) := by
  rw [← List.map_take, List.take_range]
  apply List.map_congr_left
  intro i hi
  have hi2 : i < min 2147483647 c := List.mem_range.mp hi
  have hi3 : i < 2147483647 := lt_of_lt_of_le hi2 (min_le_left _ _)
  exact wrapInt_of_range _ (by omega) (by omega)

theorem succ_cast_injective : Function.Injective (fun i : Nat => (i : Int) + 1) := by
  intro a b h
  simp only [add_left_inj, Nat.cast_inj] at h
  exact h

theorem loopBody_counter (cfg : Config) (s s1 : Sim) (e : EventQueue) (rest : Event)
    (hm : s.manager = e :: rest) (h : loopBody cfg s = some s1) :
    s1.number_of_processes
      = if isArrival e then wrapInt (s.number_of_processes + 1)
        else s.number_of_processes := by
  obtain ⟨e2, rest2, hm2, hcase⟩ := loopBody_cases cfg s s1 h
  rw [hm] at hm2
  obtain ⟨he2, _⟩ := List.cons.inj hm2
  subst he2
  rcases hcase with ⟨he, _, _, _, _, _, rfl⟩ | ⟨he, _, _, _, rfl⟩ | ⟨he, _, rfl⟩
    | ⟨he, _, _, _, _, _, rfl⟩
  · simp [isArrival, he]
  · simp [isArrival, he]
  · simp [isArrival, he]
  · simp [isArrival, he]

/-- C12 as stated fails. In the piling run the 2147483648th arrival the main
loop takes from the event queue carries the id -2147483648: the 32-bit
counter has wrapped around, and the id is neither 2147483648 nor positive. -/
theorem counter_overflow_gives_negative_id :
    (((runProcessed pileCfg 2147483648).filter isArrival).map
        (fun e : EventQueue => e.process_id)).get? 2147483647
      = some (-2147483648) := by
  obtain ⟨s, h, hp⟩ := pile_run 2147483647 (by norm_num)
  have e : 2147483647 + 1 = 2147483648 := rfl
  rw [e] at h hp
  obtain ⟨s', h', _, _, hcount, _, _⟩ := run_counter pileCfg 2147483648
  rw [h] at h'
  have hs := Option.some.inj h'
  subst hs
  obtain ⟨s'', _, _, _, hids, _, _⟩ := run_ids pileCfg 2147483648
  have hA : (runProcessed pileCfg 2147483648).countP isArrival = 2147483648 := by
    have := pile_books _ _ hp
    rw [← hcount] at this
    exact_mod_cast this
  rw [hids, hA, List.get?_eq_getElem?, List.getElem?_map,
    List.getElem?_range (by norm_num : 2147483647 < 2147483648)]
  show some (wrapInt (((2147483647 : Nat) : Int) + 1)) = some (-2147483648)
  congr 1

/-- C12, amended. In every run the arrivals the main loop takes from the event
queue carry the values of the 32-bit counter in order, the k-th the value of
k; for the first 2147483647 arrivals these are the ids 1, 2, 3, ..., positive
and no two the same. `number_of_processes` is the 32-bit value of the number
of arrivals processed plus one, and an iteration increments it, as a 32-bit
`int`, when it processes an arrival and leaves it as it is otherwise. -/
theorem arrival_ids_follow_the_counter (cfg : Config) (n : Nat) :
    ∃ s e rest s1, run cfg n = some s
      ∧ ((runProcessed cfg n).filter isArrival).map (fun e : EventQueue => e.process_id)
          = (List.range ((runProcessed cfg n).countP isArrival)).map
              (fun i : Nat => wrapInt ((i : Int) + 1))
      ∧ (((runProcessed cfg n).filter isArrival).map
          (fun e : EventQueue => e.process_id)).take 2147483647
          = (List.range (min 2147483647 ((runProcessed cfg n).countP isArrival))).map
              (fun i : Nat => (i : Int) + 1)
      ∧ ((((runProcessed cfg n).filter isArrival).map
          (fun e : EventQueue => e.process_id)).take 2147483647).Nodup
      ∧ (∀ a ∈ (((runProcessed cfg n).filter isArrival).map
          (fun e : EventQueue => e.process_id)).take 2147483647, 0 < a)
      ∧ s.number_of_processes
          = wrapInt (((runProcessed cfg n).countP isArrival : Int) + 1)
      ∧ s.manager = e :: rest
      ∧ loopBody cfg s = some s1
      ∧ s1.number_of_processes
          = (if isArrival e then wrapInt (s.number_of_processes + 1)
              else s.number_of_processes) := by
  obtain ⟨s, h, hc, _, _, _, hnum⟩ := run_counter cfg n
  obtain ⟨s', h', _, _, ha, _, _⟩ := run_ids cfg n
  obtain ⟨e, rest, s1, hm, hb, _⟩ := loopBody_CountInv cfg s hc
  have htake := take_ids ((runProcessed cfg n).countP isArrival)
  rw [← ha] at htake
  refine ⟨s, e, rest, s1, h, ha, htake, ?_, ?_, hnum, hm, hb,
    loopBody_counter cfg s s1 e rest hm hb⟩
  · rw [htake]
    exact List.Nodup.map succ_cast_injective (List.nodup_range _)
  · intro a hmem
    rw [htake] at hmem
    obtain ⟨i, _, hi⟩ := List.mem_map.mp hmem
    rw [← hi]
    show (0 : Int) < (i : Int) + 1
    omega

theorem not_pairwise_of_fall (f : Nat → Int) (k : Nat) (hk : 0 < k) (h : ¬ f 0 < f k) :
    ¬ ((List.range (k + 1)).map f).Pairwise (fun a b => a < b) := by
  intro hp
  rw [List.range_succ_eq_map, List.map_cons] at hp
  have h1 := (List.pairwise_cons.mp hp).1
  apply h
  apply h1
  rw [List.map_map]
  refine List.mem_map.mpr ⟨k - 1, List.mem_range.mpr (by omega), ?_⟩
  show f (Nat.succ (k - 1)) = f k
  congr 1
  omega

/-- C18 as stated fails. In the piling run no interval is negative, and after
2147483648 iterations the ready queue holds the ids 2, 3, ..., 2147483647 and
behind them -2147483648, the counter having wrapped around: the ids do not
increase from front to back. -/
theorem ready_ids_fall_at_overflow :
    NonnegIntervals pileCfg
      ∧ ∃ s, run pileCfg 2147483648 = some s
        ∧ s.ready_queue.map (fun p : Ready => p.process_id)
            = (List.range 2147483647).map (fun i : Nat => wrapInt (2 + (i : Int)))
        ∧ ¬ (s.ready_queue.map (fun p : Ready => p.process_id)).Pairwise
            (fun a b => a < b) := by
  refine ⟨fun k => ⟨le_of_lt (pile_positive k).1, le_of_lt (pile_positive k).2⟩, ?_⟩
  obtain ⟨s, h, hp⟩ := pile_run 2147483647 (by norm_num)
  have e : 2147483647 + 1 = 2147483648 := rfl
  rw [e] at h hp
  obtain ⟨s', h', _, hid, _⟩ := run_counter pileCfg 2147483648
  rw [h] at h'
  have hs := Option.some.inj h'
  subst hs
  have hlen : s.ready_queue.length = 2147483647 := by
    have := hp.waiting
    omega
  have hids : s.ready_queue.map (fun p : Ready => p.process_id)
      = (List.range 2147483647).map (fun i : Nat => wrapInt (2 + (i : Int))) := by
    rw [hid.ready_ids, hlen, hp.completed]
    apply List.map_congr_left
    intro i _
    rw [zero_add]
  refine ⟨s, h, hids, ?_⟩
  rw [hids]
  have e2 : 2147483647 = 2147483646 + 1 := rfl
  rw [e2]
  apply not_pairwise_of_fall (fun i : Nat => wrapInt (2 + (i : Int))) 2147483646 (by norm_num)
  show ¬ (wrapInt (2 + ((0 : Nat) : Int)) < wrapInt (2 + ((2147483646 : Nat) : Int)))
  have h1 : wrapInt (2 + ((0 : Nat) : Int)) = 2 := wrapInt_two
  have h2 : wrapInt (2 + ((2147483646 : Nat) : Int)) = -2147483648 := wrapInt_overflow
  rw [h1, h2]
  decide

/-- C18, amended. In every run, so also when no interval is negative, the
departures the main loop takes from the event queue carry the values of the
32-bit counter in order, the k-th the value of k, as the arrivals do: the
first 2147483647 departures carry the ids 1, 2, 3, ..., so processes complete
service in the order in which they arrived. The ready queue holds the values
of the counter that follow `completed_processes + 1`, in order, and as long as
fewer than 2147483648 arrivals have been processed these ids increase from
front to back. -/
theorem departures_follow_the_counter (cfg : Config) (n : Nat) :
    ∃ s, run cfg n = some s
      ∧ ((runProcessed cfg n).filter isDeparture).map (fun e : EventQueue => e.process_id)
          = (List.range ((runProcessed cfg n).countP isDeparture)).map
              (fun i : Nat => wrapInt ((i : Int) + 1))
      ∧ (((runProcessed cfg n).filter isDeparture).map
          (fun e : EventQueue => e.process_id)).take 2147483647
          = (List.range (min 2147483647 ((runProcessed cfg n).countP isDeparture))).map
              (fun i : Nat => (i : Int) + 1)
      ∧ ((runProcessed cfg n).filter isArrival).map (fun e : EventQueue => e.process_id)
          = (List.range ((runProcessed cfg n).countP isArrival)).map
              (fun i : Nat => wrapInt ((i : Int) + 1))
      ∧ (∀ e ∈ runProcessed cfg n, isDeparture e = !isArrival e)
      ∧ s.ready_queue.map (fun p : Ready => p.process_id)
          = (List.range s.ready_queue.length).map
              (fun i : Nat => wrapInt (s.completed_processes + 2 + (i : Int)))
      ∧ (((runProcessed cfg n).countP isArrival : Int) < 2147483648 →
          (s.ready_queue.map (fun p : Ready => p.process_id)).Pairwise
            (fun a b => a < b)) := by
  obtain ⟨s, h, hc, hid, hcount, hdone, _⟩ := run_counter cfg n
  obtain ⟨s', _, _, _, ha, hd, ht⟩ := run_ids cfg n
  have htake := take_ids ((runProcessed cfg n).countP isDeparture)
  rw [← hd] at htake
  refine ⟨s, h, hd, htake, ha, ?_, hid.ready_ids, ?_⟩
  · intro e he
    rcases ht e he with h0 | h0
    · simp [isDeparture, isArrival, h0, arrival_ne_departure]
    · simp [isDeparture, isArrival, h0, departure_ne_arrival]
  · intro hlt
    rw [hid.ready_ids, List.pairwise_map]
    have hrange : (List.range s.ready_queue.length).Pairwise (fun a b => a < b) :=
      List.pairwise_lt_range _
    have hdone0 : 0 ≤ s.completed_processes := by rw [← hdone]; omega
    refine hrange.imp_of_mem ?_
    intro a b ha hb hab
    have ha2 := List.mem_range.mp ha
    have hb2 := List.mem_range.mp hb
    have hbusy : s.server_idle = false := by
      cases hi : s.server_idle with
      | false => rfl
      | true =>
        have := hc.idle_ready hi
        rw [this] at hb2
        simp at hb2
    have hbooks : arrived s = s.completed_processes + s.ready_queue.length + 1 := by
      simp [arrived, hbusy]
    rw [wrapInt_of_range _ (by omega) (by omega), wrapInt_of_range _ (by omega) (by omega)]
    omega

/-! ## When the loop ends -/

/-- C13 as stated fails. With `-1` and `-2` read from the console the program
does not stop: the first iteration of the loop runs, processes the arrival of
process 1 at time 0 and schedules the next arrival. -/
theorem negative_rates_are_not_rejected :
    negativeCfg.avg_arrival_rate ≤ 0 ∧ negativeCfg.avg_service_rate ≤ 0
      ∧ runProcessed negativeCfg 1 = [⟨"arrival", 0, 1⟩]
      ∧ run negativeCfg 1 = some
          { number_of_processes := 2
            total_service_time := -2
            total_ready_queue_time := 0
            completed_processes := 0
            clock := 0
            server_idle := false
            ready_queue := []
            manager := [⟨"departure", -2, 1⟩, ⟨"arrival", -1, 2⟩]
            calls := 2 } := by
  have hb : loopBody negativeCfg startState = some
      { number_of_processes := 2
        total_service_time := -2
        total_ready_queue_time := 0
        completed_processes := 0
        clock := 0
        server_idle := false
        ready_queue := []
        manager := [⟨"departure", -2, 1⟩, ⟨"arrival", -1, 2⟩]
        calls := 2 } := by
    simp [startState, loopBody, HandleArrival, InsertEvent, scanLoop, negativeCfg,
      sourceGen, GenerateTimes, GetNextEventType, GetNextEventTime, GetNextProcessID,
      RemoveEvent, wrapInt_two]
  have hg : startState.completed_processes < negativeCfg.target := by
    simp [startState, negativeCfg]
  refine ⟨by simp [negativeCfg], by simp [negativeCfg], ?_, ?_⟩
  · simp only [runProcessed, initial_eq]
    rw [processed_step negativeCfg 0 startState _ ⟨"arrival", 0, 1⟩ [] hg rfl hb]
    rfl
  · simp only [run, initial_eq]
    rw [mainLoop_step negativeCfg 0 startState _ hg hb]
    rfl

/-- C13, amended. Whatever the two numbers read from the console are, also
zero or below, the run never stops with an error, and the loop starts
exactly when the number of completions asked for is above zero: its first
iteration then processes the arrival of process 1 at time 0. -/
theorem loop_runs_whatever_the_rates (cfg : Config) (n : Nat) :
    (∃ s, run cfg n = some s)
      ∧ (runProcessed cfg (n + 1)).head?
          = (if 0 < cfg.target then some ⟨"arrival", 0, 1⟩ else none) := by
  obtain ⟨s, h, _⟩ := run_CountInv cfg n
  refine ⟨⟨s, h⟩, ?_⟩
  simp only [runProcessed, initial_eq]
  by_cases hg : 0 < cfg.target
  · have hg' : startState.completed_processes < cfg.target := hg
    obtain ⟨e, rest, s1, hm, hb, _⟩ :=
      loopBody_CountInv cfg startState (initial_CountInv _ initial_eq)
    have he : e = ⟨"arrival", 0, 1⟩ := by
      have : startState.manager = [⟨"arrival", 0, 1⟩] := rfl
      rw [this] at hm
      exact ((List.cons.inj hm).1).symm
    rw [processed_step cfg n startState s1 e rest hg' hm hb, if_pos hg, he]
    rfl
  · have hg' : ¬ (startState.completed_processes < cfg.target) := hg
    rw [processed_done cfg _ startState hg', if_neg hg]
    rfl

/-! ## The handlers: claims -/

/-- C14. `RemoveEvent` leaves the empty event queue empty, and takes from a
queue that is not empty its head and nothing else: the events behind the head
stay, in their order. -/
theorem RemoveEvent_effect :
    RemoveEvent [] = []
      ∧ ∀ (a : EventQueue) (rest : Event),
          RemoveEvent (a :: rest) = rest
          ∧ a :: RemoveEvent (a :: rest) = a :: rest
          ∧ (RemoveEvent (a :: rest)).length + 1 = (a :: rest).length :=
  ⟨rfl, fun _ _ => ⟨rfl, rfl, rfl⟩⟩


theorem length_InsertEvent (q q1 : Event) (ty : String) (t : ℚ) (id : Int)
    (h : InsertEvent q ty t id = some q1) : q1.length = q.length + 1 := by
  rw [(perm_InsertEvent q q1 ty t id h).length_eq, List.length_cons]

/-- C15. When the server is idle, `HandleArrival` for process `p_id` at time
`clock`, drawing the service time `sv` and then the time `ia` to the next
arrival, sets the server busy, adds exactly `sv` to `total_service_time`,
leaves the ready queue as it is, adds one to `number_of_processes`, and puts
exactly two events into the event queue, the departure of `p_id` at
`clock + sv` and the arrival of the new `number_of_processes` at `clock + ia`,
the events already there keeping their order. The addition is that of a
32-bit `int`: below 2147483647 the new value is the old one plus one. -/
theorem HandleArrival_idle_effect (cfg : Config) (s : Sim) (p_id : Int)
    (hi : s.server_idle = true) :
    ∃ s1 m1, HandleArrival cfg s p_id = some s1
      ∧ s1.server_idle = false
      ∧ s1.total_service_time
          = s.total_service_time + cfg.gen s.calls (1 / cfg.avg_service_rate)
      ∧ s1.ready_queue = s.ready_queue
      ∧ s1.number_of_processes = wrapInt (s.number_of_processes + 1)
      ∧ InsertEvent s.manager "departure"
          (s.clock + cfg.gen s.calls (1 / cfg.avg_service_rate)) p_id = some m1
      ∧ InsertEvent m1 "arrival"
          (s.clock + cfg.gen (s.calls + 1) cfg.avg_arrival_rate)
          (wrapInt (s.number_of_processes + 1)) = some s1.manager
      ∧ s1.manager.Perm
          (⟨"arrival", s.clock + cfg.gen (s.calls + 1) cfg.avg_arrival_rate,
              s1.number_of_processes⟩
            :: ⟨"departure", s.clock + cfg.gen s.calls (1 / cfg.avg_service_rate), p_id⟩
            :: s.manager)
      ∧ s.manager.Sublist s1.manager
      ∧ s1.manager.length = s.manager.length + 2
      ∧ s1.clock = s.clock
      ∧ s1.completed_processes = s.completed_processes
      ∧ s1.total_ready_queue_time = s.total_ready_queue_time
      ∧ (-2147483648 ≤ s.number_of_processes → s.number_of_processes < 2147483647 →
          s1.number_of_processes = s.number_of_processes + 1) := by
  obtain ⟨m1, h1⟩ := InsertEvent_total s.manager "departure"
    (s.clock + cfg.gen s.calls (1 / cfg.avg_service_rate)) p_id
  obtain ⟨m2, h2⟩ := InsertEvent_total m1 "arrival"
    (s.clock + cfg.gen (s.calls + 1) cfg.avg_arrival_rate)
    (wrapInt (s.number_of_processes + 1))
  refine ⟨_, m1, HandleArrival_idle cfg s p_id m1 m2 hi h1 h2, rfl, rfl, rfl, rfl, h1, h2,
    ?_, ?_, ?_, rfl, rfl, rfl,
    fun hlo hhi => wrapInt_of_range _ (by omega) (by omega)⟩
  · exact (perm_InsertEvent _ _ _ _ _ h2).trans
      (List.Perm.cons _ (perm_InsertEvent _ _ _ _ _ h1))
  · exact (sublist_InsertEvent _ _ _ _ _ h1).trans (sublist_InsertEvent _ _ _ _ _ h2)
  · show m2.length = s.manager.length + 2
    rw [length_InsertEvent _ _ _ _ _ h2, length_InsertEvent _ _ _ _ _ h1]

/-- C15 at the first arrival of the scenario of the specification. -/
theorem HandleArrival_idle_effect_witness :
    startState.server_idle = true
      ∧ ∃ s1 m1, HandleArrival scenarioCfg startState 1 = some s1
        ∧ s1.server_idle = false
        ∧ s1.total_service_time = startState.total_service_time
            + scenarioCfg.gen startState.calls (1 / scenarioCfg.avg_service_rate)
        ∧ s1.ready_queue = startState.ready_queue
        ∧ s1.number_of_processes = wrapInt (startState.number_of_processes + 1)
        ∧ InsertEvent startState.manager "departure"
            (startState.clock
              + scenarioCfg.gen startState.calls (1 / scenarioCfg.avg_service_rate)) 1
            = some m1
        ∧ InsertEvent m1 "arrival"
            (startState.clock
              + scenarioCfg.gen (startState.calls + 1) scenarioCfg.avg_arrival_rate)
            (wrapInt (startState.number_of_processes + 1)) = some s1.manager
        ∧ s1.manager.Perm
            (⟨"arrival", startState.clock
                + scenarioCfg.gen (startState.calls + 1) scenarioCfg.avg_arrival_rate,
                s1.number_of_processes⟩
              :: ⟨"departure", startState.clock
                  + scenarioCfg.gen startState.calls (1 / scenarioCfg.avg_service_rate), 1⟩
              :: startState.manager)
        ∧ startState.manager.Sublist s1.manager
        ∧ s1.manager.length = startState.manager.length + 2
        ∧ s1.clock = startState.clock
        ∧ s1.completed_processes = startState.completed_processes
        ∧ s1.total_ready_queue_time = startState.total_ready_queue_time
        ∧ (-2147483648 ≤ startState.number_of_processes →
            startState.number_of_processes < 2147483647 →
            s1.number_of_processes = startState.number_of_processes + 1) :=
  ⟨rfl, HandleArrival_idle_effect scenarioCfg startState 1 rfl⟩

/-- C17. With an empty ready queue `HandleDeparture` sets the server idle and
changes nothing else. Otherwise it leaves the server busy, takes the front
entry off the ready queue, the entries behind it keeping their order, adds
the service time kept in that entry to `total_service_time`, puts exactly
one event into the event queue, the departure of that entry's process at
`clock` plus that service time, and draws no interval. In both cases the
loop body, which calls it for an event that is not an arrival, then adds
exactly one to `completed_processes`. -/
theorem HandleDeparture_effect (cfg : Config) (s : Sim) :
    (s.ready_queue = [] → HandleDeparture s = some { s with server_idle := true })
    ∧ (∀ (p : Ready) (ps : List Ready), s.ready_queue = p :: ps →
        ∃ s1, HandleDeparture s = some s1
          ∧ s1.server_idle = false
          ∧ s1.ready_queue = ps
          ∧ s1.total_service_time = s.total_service_time + p.service_time
          ∧ InsertEvent s.manager "departure" (s.clock + p.service_time) p.process_id
              = some s1.manager
          ∧ s1.manager.Perm
              (⟨"departure", s.clock + p.service_time, p.process_id⟩ :: s.manager)
          ∧ s.manager.Sublist s1.manager
          ∧ s1.manager.length = s.manager.length + 1
          ∧ s1.calls = s.calls
          ∧ s1.number_of_processes = s.number_of_processes
          ∧ s1.clock = s.clock
          ∧ s1.completed_processes = s.completed_processes
          ∧ s1.total_ready_queue_time = s.total_ready_queue_time)
    ∧ (∀ (e : EventQueue) (rest : Event), s.manager = e :: rest → e.type ≠ "arrival" →
        ∃ s1 s2,
          HandleDeparture { s with manager := RemoveEvent s.manager, clock := e.event_time }
            = some s1
          ∧ s1.completed_processes = s.completed_processes
          ∧ loopBody cfg s = some s2
          ∧ s2.completed_processes = s1.completed_processes + 1
          ∧ s2.server_idle = s1.server_idle
          ∧ s2.ready_queue = s1.ready_queue
          ∧ s2.manager = s1.manager
          ∧ s2.total_service_time = s1.total_service_time) := by
  refine ⟨fun hr => HandleDeparture_empty s hr, ?_, ?_⟩
  · intro p ps hr
    obtain ⟨m1, h1⟩ := InsertEvent_total s.manager "departure"
      (s.clock + p.service_time) p.process_id
    exact ⟨_, HandleDeparture_next s p ps m1 hr h1, rfl, rfl, rfl, h1,
      perm_InsertEvent _ _ _ _ _ h1, sublist_InsertEvent _ _ _ _ _ h1,
      length_InsertEvent _ _ _ _ _ h1, rfl, rfl, rfl, rfl, rfl⟩
  · intro e rest hm he
    obtain hr | ⟨p, ps, hr⟩ : s.ready_queue = [] ∨ ∃ p ps, s.ready_queue = p :: ps := by
      cases s.ready_queue with
      | nil => exact Or.inl rfl
      | cons p ps => exact Or.inr ⟨p, ps, rfl⟩
    · refine ⟨_, _, HandleDeparture_empty _ hr, rfl,
        loopBody_departure_empty cfg s e rest hm he hr, rfl, rfl, ?_, ?_, rfl⟩
      · exact hr.symm
      · show rest = RemoveEvent s.manager
        rw [hm]; rfl
    · obtain ⟨m1, h1⟩ := InsertEvent_total rest "departure"
        (e.event_time + p.service_time) p.process_id
      have h1' : InsertEvent
          ({ s with manager := RemoveEvent s.manager, clock := e.event_time } : Sim).manager
          "departure"
          (({ s with manager := RemoveEvent s.manager, clock := e.event_time } : Sim).clock
            + p.service_time) p.process_id = some m1 := by
        show InsertEvent (RemoveEvent s.manager) "departure"
          (e.event_time + p.service_time) p.process_id = some m1
        rw [hm]; exact h1
      exact ⟨_, _, HandleDeparture_next _ p ps m1 hr h1', rfl,
        loopBody_departure_next cfg s e rest m1 p ps hm he hr h1, rfl, rfl, rfl, rfl, rfl⟩

/-- C19. `InsertEvent` on any event queue, in order or not, gives the old queue
with the new event put in at one place: the result is one longer, taking the
new event out again at that place gives the old queue back, and the old
events are all there in their old order. -/
theorem InsertEvent_keeps_events (q : Event) (ty : String) (t : ℚ) (id : Int) :
    ∃ before after, q = before ++ after
      ∧ InsertEvent q ty t id = some (before ++ ⟨ty, t, id⟩ :: after)
      ∧ (before ++ ⟨ty, t, id⟩ :: after).length = q.length + 1
      ∧ (before ++ ⟨ty, t, id⟩ :: after).eraseIdx before.length = q
      ∧ (before ++ ⟨ty, t, id⟩ :: after).get? before.length = some ⟨ty, t, id⟩
      ∧ q.Sublist (before ++ ⟨ty, t, id⟩ :: after) := by
  have h := InsertEvent_eq q ty t id
  have h2 := scanLoop_append t q
  refine ⟨(scanLoop t q).1, (scanLoop t q).2, h2.symm, h, ?_, ?_, ?_, ?_⟩
  · rw [length_InsertEvent q _ ty t id h]
  · rw [List.eraseIdx_append_of_length_le (le_refl _)]
    simp [h2]
  · rw [List.get?_eq_getElem?, List.getElem?_append_right (le_refl _)]
    simp
  · exact sublist_InsertEvent q _ ty t id h

/-- C20. When `InsertEvent` reaches its scan loop, the queue having a head
whose time the new time is not below, the first iteration of the loop walks
past the head, so `prev` is a node of the queue when the loop ends, and the
new node is linked in behind it. For every queue and every new event
`InsertEvent` has a result. -/
theorem InsertEvent_prev_not_null (lead : EventQueue) (rest : Event) (ty : String)
    (t : ℚ) (id : Int) (h : ¬ t < lead.event_time) :
    (∃ walked l prev, scanLoop t (lead :: rest) = (lead :: walked, l)
      ∧ (lead :: walked).getLast? = some prev
      ∧ prev ∈ lead :: rest
      ∧ InsertEvent (lead :: rest) ty t id
          = some ((lead :: walked) ++ ⟨ty, t, id⟩ :: l))
    ∧ ∀ q : Event, (InsertEvent q ty t id).isSome = true := by
  constructor
  · refine ⟨(scanLoop t rest).1, (scanLoop t rest).2,
      (lead :: (scanLoop t rest).1).getLast (List.cons_ne_nil _ _), ?_, ?_, ?_, ?_⟩
    · simp [scanLoop, h]
    · exact List.getLast?_eq_getLast _ _
    · have hmem : (lead :: (scanLoop t rest).1).getLast (List.cons_ne_nil _ _)
          ∈ lead :: (scanLoop t rest).1 := List.getLast_mem _
      have hsub : ∀ x ∈ (scanLoop t rest).1, x ∈ rest := by
        intro x hx
        have hx2 := List.mem_append_left (scanLoop t rest).2 hx
        rwa [scanLoop_append t rest] at hx2
      rcases List.mem_cons.mp hmem with hx | hx
      · rw [hx]; exact List.mem_cons_self _ _
      · exact List.mem_cons_of_mem _ (hsub _ hx)
    · simp [InsertEvent, scanLoop, h]
  · intro q
    rw [InsertEvent_eq]
    rfl

/-- C20 at a queue whose head has the time of the new event. -/
theorem InsertEvent_prev_not_null_witness :
    ¬ ((1 : ℚ) < (⟨"arrival", 1, 1⟩ : EventQueue).event_time)
      ∧ ((∃ walked l prev,
            scanLoop 1 [⟨"arrival", 1, 1⟩, ⟨"departure", 2, 2⟩]
              = (⟨"arrival", 1, 1⟩ :: walked, l)
          ∧ (⟨"arrival", 1, 1⟩ :: walked).getLast? = some prev
          ∧ prev ∈ [(⟨"arrival", 1, 1⟩ : EventQueue), ⟨"departure", 2, 2⟩]
          ∧ InsertEvent [⟨"arrival", 1, 1⟩, ⟨"departure", 2, 2⟩] "arrival" 1 3
              = some ((⟨"arrival", 1, 1⟩ :: walked) ++ ⟨"arrival", 1, 3⟩ :: l))
        ∧ ∀ q : Event, (InsertEvent q "arrival" 1 3).isSome = true) :=
  ⟨by simp, InsertEvent_prev_not_null ⟨"arrival", 1, 1⟩ [⟨"departure", 2, 2⟩] "arrival" 1 3
    (by simp)⟩

end DES
